import Mathlib

/-!
Verification of the go-mines board engine (`msboard/Board.go`).

The Go source is shallowly embedded: the mutable `Board` struct becomes an
immutable structure passed and returned explicitly, Go `int` becomes `Int`
(`Nat` for the non-negative counters `score` and `mineCount`), nil-able cell
pointers become `Option Cell`, and the two sources of partiality — the global
`rand` stream consumed by `Initialize` and the recursion of
`PropagateReveals` — become an explicit `rng : Nat → Nat` stream and a fuel
parameter returning `Option Board` (`none` = the computation did not finish
within the fuel).
-/

/-- `Location` from Board.go: zero-based cell location, `{0,0}` is upper left. -/
structure Location where
  row : Int
  col : Int
deriving DecidableEq

/-- `cell` from Board.go: state for a single cell on the board. -/
structure Cell where
  location : Location
  hasMine : Bool
  score : Nat
  flagged : Bool
  revealed : Bool
deriving DecidableEq

/-- `Board` from Board.go (the embedded `boardSaveState` fields are inlined). -/
structure Board where
  initialized : Bool
  difficulty : String
  rows : Int
  cols : Int
  mines : List Location
  explosionOccured : Bool
  cells : List (List Cell)
  safeRemaining : Int
  mineCount : Nat
deriving DecidableEq

instance : Inhabited Board :=
  ⟨{ initialized := false, difficulty := "", rows := 0, cols := 0, mines := [],
     explosionOccured := false, cells := [], safeRemaining := 0, mineCount := 0 }⟩

/-- Zero-based list indexing returning `Option`, as Go slice indexing guarded
by a length check. -/
def idxGet : List α → Nat → Option α
  | [], _ => none
  | x :: _, 0 => some x
  | _ :: xs, n + 1 => idxGet xs n

/-- In-place update of one list entry (Go assignment through a slice index). -/
def idxModify (f : α → α) : List α → Nat → List α
  | [], _ => []
  | x :: xs, 0 => f x :: xs
  | x :: xs, n + 1 => x :: idxModify f xs n

/-- Number of list entries satisfying `p`. -/
def countB (p : α → Bool) : List α → Nat
  | [] => 0
  | x :: xs => (if p x then 1 else 0) + countB p xs

/-- Two-dimensional indexing `g[r][c]` as an `Option`. -/
def gridGet (g : List (List α)) (r c : Nat) : Option α :=
  (idxGet g r).bind fun row => idxGet row c

/-- Two-dimensional in-place update of `g[r][c]`. -/
def gridModify (f : α → α) (g : List (List α)) (r c : Nat) : List (List α) :=
  idxModify (fun row => idxModify f row c) g r

/-- `getCell` from Board.go: bounds-checked lookup; out-of-grid locations give
`none` (Go `nil`). For an in-bounds location the grid itself is indexed; on a
board whose `cells` grid is not allocated that Go indexing panics — see
`Board.cellLookupPanics`. -/
def Board.getCell (b : Board) (selected : Location) : Option Cell :=
  if selected.row < 0 ∨ selected.row ≥ b.rows ∨ selected.col < 0 ∨ selected.col ≥ b.cols then
    none
  else
    gridGet b.cells selected.row.toNat selected.col.toNat

/-- The crash case of `getCell`: the location passes the `rows`/`cols` bounds
precondition, yet `b.cells[row][col]` indexes outside the allocated grid —
in Go an index-out-of-range panic (this happens exactly when `Initialize` has
not allocated `cells`). -/
def Board.cellLookupPanics (b : Board) (selected : Location) : Bool :=
  if selected.row < 0 ∨ selected.row ≥ b.rows ∨ selected.col < 0 ∨ selected.col ≥ b.cols then
    false
  else
    (gridGet b.cells selected.row.toNat selected.col.toNat).isNone

/-- Write through the cell pointer returned by `getCell`: functional update of
the grid entry. -/
def Board.modifyCell (b : Board) (l : Location) (f : Cell → Cell) : Board :=
  { b with cells := gridModify f b.cells l.row.toNat l.col.toNat }

/-- `ValidLocation` from Board.go. -/
def Board.ValidLocation (b : Board) (l : Location) : Bool :=
  if l.row ≥ 0 ∧ l.row < b.rows ∧ l.col ≥ 0 ∧ l.col < b.cols then true else false

/-- The eight Moore-neighborhood positions `row±1, col±1` (center excluded),
in the row-major order of the two nested loops of `getNeighborCells`. -/
def mooreNeighbors (l : Location) : List Location :=
  [⟨l.row - 1, l.col - 1⟩, ⟨l.row - 1, l.col⟩, ⟨l.row - 1, l.col + 1⟩,
   ⟨l.row, l.col - 1⟩, ⟨l.row, l.col + 1⟩,
   ⟨l.row + 1, l.col - 1⟩, ⟨l.row + 1, l.col⟩, ⟨l.row + 1, l.col + 1⟩]

/-- `getNeighborCells` from Board.go: `nil` center gives no neighbors, else
each in-grid neighbor cell in loop order. -/
def Board.getNeighborCells (b : Board) (l : Location) : List Cell :=
  if (b.getCell l).isNone then [] else (mooreNeighbors l).filterMap b.getCell

/-- The positions of the cells returned by `getNeighborCells`. -/
def Board.neighborLocs (b : Board) (l : Location) : List Location :=
  if (b.getCell l).isNone then [] else (mooreNeighbors l).filter fun m => (b.getCell m).isSome

/-- The reveal write `n.revealed = true`. -/
def revealCell (c : Cell) : Cell :=
  { c with revealed := true }

/-- The body of the `for _, n := range neighbors` loop of `PropagateReveals`,
over the remaining neighbor positions, with `rec` standing for the recursive
`b.PropagateReveals(n)` call. The `revealed` flag is re-read from the current
board at each iteration, as the Go loop reads it through the live cell
pointer; the recursive call is made at the cell's stored `location` field,
as Go recurses on the cell value itself. -/
def propLoop (rec : Board → Location → Option Board) : Board → List Location → Option Board
  | b, [] => some b
  | b, n :: rest =>
    match b.getCell n with
    | none => propLoop rec b rest
    | some c =>
      if c.revealed then propLoop rec b rest
      else
        let b1 := b.modifyCell n revealCell
        if c.score = 0 then
          match rec b1 c.location with
          | none => none
          | some b2 => propLoop rec b2 rest
        else propLoop rec b1 rest

/-- `PropagateReveals` from Board.go, with fuel bounding the recursion depth
(`none` = fuel exhausted; the Go recursion has no such bound and
`propagateReveals_spec` shows any `fuel > ` number of unrevealed cells
completes). -/
def propagateReveals : Nat → Board → Location → Option Board
  | 0, _, _ => none
  | fuel + 1, b, l => propLoop (propagateReveals fuel) b (b.neighborLocs l)

/-- `Click` from Board.go. The fuel is passed through to `PropagateReveals`. -/
def Board.clickF (b : Board) (fuel : Nat) (l : Location) : Option Board :=
  match b.getCell l with
  | none => some b
  | some c =>
    if c.flagged then some b
    else if c.revealed then some b
    else
      let b1 := b.modifyCell l revealCell
      if c.hasMine then some { b1 with explosionOccured := true }
      else if c.score = 0 then propagateReveals fuel b1 c.location
      else some b1

/-- `ToggleFlag` from Board.go. -/
def Board.ToggleFlag (b : Board) (l : Location) : Board :=
  match b.getCell l with
  | none => b
  | some c =>
    if c.revealed = false then b.modifyCell l (fun x => { x with flagged := !x.flagged }) else b

/-- `SafeRemaining` from Board.go: 0 before `Initialize`, else the cached
counter. -/
def Board.SafeRemaining (b : Board) : Int :=
  if b.initialized = true then b.safeRemaining else 0

/-- `MineHit` from Board.go. -/
def Board.MineHit (b : Board) : Bool :=
  b.explosionOccured

/-- `boardparams` from Board.go. -/
structure Boardparams where
  difficulty : String
  rows : Int
  cols : Int
  mineCount : Nat
deriving DecidableEq

/-- `boardDefinitionsDict` from msboard/Board.go, as a lookup function. -/
def boardDefinitionsDict (name : String) : Option Boardparams :=
  if name = "easy" then some ⟨"easy", 9, 9, 10⟩
  else if name = "medium" then some ⟨"medium", 16, 16, 30⟩
  else if name = "hard" then some ⟨"hard", 30, 16, 72⟩
  else none

/-- `NewBoard` from msboard/Board.go: `none` for an unrecognized difficulty,
else a zero-valued board carrying the preset dimensions and mine count
(`cells` not yet allocated). -/
def NewBoard (difficulty : String) : Option Board :=
  match boardDefinitionsDict difficulty with
  | none => none
  | some params =>
    some { initialized := false, difficulty := difficulty, rows := params.rows,
           cols := params.cols, mines := [], explosionOccured := false, cells := [],
           safeRemaining := 0, mineCount := params.mineCount }

/-- The fresh default grid allocated at the top of `Initialize`: each cell
zero-valued with its `location` set to its grid position. -/
def mkCells (rows cols : Int) : List (List Cell) :=
  (List.range rows.toNat).map fun (r : Nat) =>
    (List.range cols.toNat).map fun (c : Nat) =>
      { location := ⟨(r : Int), (c : Int)⟩, hasMine := false, score := 0,
        flagged := false, revealed := false }

/-- All grid positions in the row-major order of the nested
`for row ... for col ...` loops. -/
def allLocations (rows cols : Int) : List Location :=
  (List.range rows.toNat).flatMap fun (r : Nat) =>
    (List.range cols.toNat).map fun (c : Nat) => (⟨(r : Int), (c : Int)⟩ : Location)

/-- The mine write of `Initialize`. -/
def setMine (c : Cell) : Cell :=
  { c with hasMine := true }

/-- One cell visit of the mine-placement scan of `Initialize`. The threaded
state is (board, next rng index, mines still to place): skip when the supply
is exhausted or at the safe spot (no rng draw), else draw; on a draw `< 2`
place a mine unless one is already there. -/
def placeMineStep (safespot : Location) (rng : Nat → Nat) :
    Board × Nat × Nat → Location → Board × Nat × Nat
  | (b, k, toPlace), l =>
    if toPlace = 0 then (b, k, toPlace)
    else if l = safespot then (b, k, toPlace)
    else
      let mineshot := rng k
      if mineshot < 2 then
        match b.getCell l with
        | none => (b, k + 1, toPlace)
        | some c =>
          if c.hasMine then (b, k + 1, toPlace)
          else
            ({ b.modifyCell l setMine with
                 mines := b.mines ++ [l], safeRemaining := b.safeRemaining - 1 },
             k + 1, toPlace - 1)
      else (b, k + 1, toPlace)

/-- One full row-major scan of the grid (the two inner loops of the
mine-placement phase of `Initialize`). -/
def placeMinesSweep (safespot : Location) (rng : Nat → Nat)
    (st : Board × Nat × Nat) : Board × Nat × Nat :=
  (allLocations st.1.rows st.1.cols).foldl (placeMineStep safespot rng) st

/-- The `for minesToPlace > 0` outer loop of `Initialize`, fueled by the
number of scans allowed (`none` = supply not exhausted within the fuel; the
Go loop would simply keep scanning). -/
def placeMinesLoop (safespot : Location) (rng : Nat → Nat) :
    Nat → Board × Nat × Nat → Option (Board × Nat × Nat)
  | 0, st => if st.2.2 = 0 then some st else none
  | fuel + 1, st =>
    if st.2.2 = 0 then some st
    else placeMinesLoop safespot rng fuel (placeMinesSweep safespot rng st)

/-- The proximity score the Go code computes for the cell at `l`: the number
of cells of `getNeighborCells` with `hasMine`. -/
def Board.mineScoreAt (b : Board) (l : Location) : Nat :=
  countB (fun c => c.hasMine) (b.getNeighborCells l)

/-- `initializeScores` from Board.go: for each cell in row-major order, store
the count of mined neighbors (read from the board as updated so far — score
writes do not touch `hasMine`, so the order is immaterial, which
`initializeF_scores` makes precise). -/
def scoreStep (bb : Board) (l : Location) : Board :=
  match bb.getCell l with
  | none => bb
  | some _ => bb.modifyCell l fun c => { c with score := bb.mineScoreAt l }

def initScores (b : Board) : Board :=
  (allLocations b.rows b.cols).foldl scoreStep b

/-- `Initialize` from Board.go: allocate the default grid, reset
`safeRemaining` to `rows*cols`, place `mineCount` mines by repeated random
scans (fueled), compute scores, set `initialized`. Note the `mines` list is
appended to, not reset, exactly as in the source. -/
def Board.initializeF (b : Board) (fuel : Nat) (rng : Nat → Nat)
    (safespot : Location) : Option Board :=
  let b0 := { b with cells := mkCells b.rows b.cols, safeRemaining := b.rows * b.cols }
  match placeMinesLoop safespot rng fuel (b0, 0, b.mineCount) with
  | none => none
  | some (b1, _, _) => some { initScores b1 with initialized := true }

/-- Count of entries of the whole grid satisfying `p`. -/
def gridCountB (p : α → Bool) : List (List α) → Nat
  | [] => 0
  | row :: rest => countB p row + gridCountB p rest

/-- Number of cells holding a mine. -/
def Board.countMines (b : Board) : Nat :=
  gridCountB (fun c => c.hasMine) b.cells

/-- Number of cells not yet revealed. -/
def Board.unrevealedCount (b : Board) : Nat :=
  gridCountB (fun c => !c.revealed) b.cells

/-- Convenience reads (false / 0 outside the grid). -/
def Board.revealedAt (b : Board) (l : Location) : Bool :=
  match b.getCell l with
  | some c => c.revealed
  | none => false

def Board.mineAt (b : Board) (l : Location) : Bool :=
  match b.getCell l with
  | some c => c.hasMine
  | none => false

def Board.flaggedAt (b : Board) (l : Location) : Bool :=
  match b.getCell l with
  | some c => c.flagged
  | none => false

def Board.scoreAt (b : Board) (l : Location) : Nat :=
  match b.getCell l with
  | some c => c.score
  | none => 0

/-- Location-field sanity of one grid entry (used by `Board.WFD`). -/
def locOKB (g : List (List Cell)) (r c : Nat) : Bool :=
  match gridGet g r c with
  | some x => decide (x.location = ⟨(r : Int), (c : Int)⟩)
  | none => true

/-- Well-formed grid: `rows × cols` cells allocated and every cell's stored
`location` is its grid position — exactly the state `Initialize` builds.
Decidable, so concrete boards can be checked by `decide`. -/
def Board.WFD (b : Board) : Prop :=
  0 ≤ b.rows ∧ 0 ≤ b.cols ∧ b.cells.length = b.rows.toNat ∧
  (∀ r, r < b.cells.length → ((idxGet b.cells r).getD []).length = b.cols.toNat) ∧
  (∀ r, r < b.rows.toNat → ∀ c, c < b.cols.toNat → locOKB b.cells r c = true)

/-- The cell at `l` (if zero-scored and revealed) has all its neighbors
revealed. -/
def Board.ZeroInvAt (b : Board) (l : Location) : Prop :=
  b.scoreAt l = 0 → b.revealedAt l = true → ∀ m ∈ b.neighborLocs l, b.revealedAt m = true

/-- Every revealed zero-score cell has all its neighbors revealed (bounded,
decidable form). This holds after `Initialize` (nothing revealed) and is
preserved by every board operation, see `clickF_preserves_zeroInv`. -/
def Board.ZeroInvD (b : Board) : Prop :=
  ∀ r, r < b.rows.toNat → ∀ c, c < b.cols.toNat → b.ZeroInvAt ⟨(r : Int), (c : Int)⟩

/-- Unbounded form of `Board.ZeroInvD`. -/
def Board.ZeroInv (b : Board) : Prop :=
  ∀ l, b.ZeroInvAt l

/-- Every stored score is the true count of mined Moore neighbors (bounded,
decidable form). -/
def Board.ScoresCorrectD (b : Board) : Prop :=
  ∀ r, r < b.rows.toNat → ∀ c, c < b.cols.toNat →
    b.scoreAt ⟨(r : Int), (c : Int)⟩ =
      countB (fun m => b.mineAt m) (mooreNeighbors ⟨(r : Int), (c : Int)⟩)

instance (b : Board) : Decidable b.WFD := by
  unfold Board.WFD
  infer_instance

instance (b : Board) (l : Location) : Decidable (b.ZeroInvAt l) := by
  unfold Board.ZeroInvAt
  infer_instance

instance (b : Board) : Decidable b.ZeroInvD := by
  unfold Board.ZeroInvD Board.ZeroInvAt
  infer_instance

instance (b : Board) : Decidable b.ScoresCorrectD := by
  unfold Board.ScoresCorrectD
  infer_instance

/-- The set of cells a click on the zero-score cell `s` contracts to reveal:
`s` itself, closed under taking all neighbors of any member whose score is
zero. This is the connected zero-score region of `s` together with its
immediate non-zero-score border. -/
inductive RevealClosure (b : Board) (s : Location) : Location → Prop where
  | start : RevealClosure b s s
  | step {z m : Location} : RevealClosure b s z → b.scoreAt z = 0 →
      m ∈ b.neighborLocs z → RevealClosure b s m

/-! ## Index and counting lemmas -/

theorem idxGet_modify_self (f : α → α) (xs : List α) :
    ∀ i, idxGet (idxModify f xs i) i = (idxGet xs i).map f := by
  induction xs with
  | nil => intro i; cases i <;> rfl
  | cons x xs ih =>
    intro i
    cases i with
    | zero => rfl
    | succ n => simpa [idxModify, idxGet] using ih n

theorem idxGet_modify_other (f : α → α) (xs : List α) :
    ∀ i j, i ≠ j → idxGet (idxModify f xs i) j = idxGet xs j := by
  induction xs with
  | nil => intro i j _; cases i <;> rfl
  | cons x xs ih =>
    intro i j hne
    cases i with
    | zero =>
      cases j with
      | zero => exact absurd rfl hne
      | succ m => rfl
    | succ n =>
      cases j with
      | zero => rfl
      | succ m => simpa [idxModify, idxGet] using ih n m (by omega)

theorem countB_modify (p : α → Bool) (f : α → α) (xs : List α) :
    ∀ i x, idxGet xs i = some x →
      countB p (idxModify f xs i) + (if p x then 1 else 0) =
        countB p xs + (if p (f x) then 1 else 0) := by
  induction xs with
  | nil => intro i x h; cases i <;> simp [idxGet] at h
  | cons y ys ih =>
    intro i x h
    cases i with
    | zero =>
      simp only [idxGet] at h
      cases h
      simp only [idxModify, countB]
      omega
    | succ n =>
      simp only [idxGet] at h
      have h2 := ih n x h
      simp only [idxModify, countB]
      omega

theorem gridGet_modify_self (f : α → α) (g : List (List α)) (r c : Nat) :
    gridGet (gridModify f g r c) r c = (gridGet g r c).map f := by
  unfold gridGet gridModify
  rw [idxGet_modify_self]
  cases idxGet g r with
  | none => rfl
  | some row => simp [idxGet_modify_self]

theorem gridGet_modify_other (f : α → α) (g : List (List α)) (r c r' c' : Nat)
    (h : r ≠ r' ∨ c ≠ c') :
    gridGet (gridModify f g r c) r' c' = gridGet g r' c' := by
  unfold gridGet gridModify
  rcases h with h | h
  · rw [idxGet_modify_other _ _ _ _ h]
  · by_cases hr : r = r'
    · subst hr
      rw [idxGet_modify_self]
      cases idxGet g r with
      | none => rfl
      | some row => simp [idxGet_modify_other _ _ _ _ h]
    · rw [idxGet_modify_other _ _ _ _ hr]

theorem gridCountB_modify (p : α → Bool) (f : α → α) (g : List (List α)) :
    ∀ r c x, gridGet g r c = some x →
      gridCountB p (gridModify f g r c) + (if p x then 1 else 0) =
        gridCountB p g + (if p (f x) then 1 else 0) := by
  induction g with
  | nil => intro r c x h; cases r <;> simp [gridGet, idxGet] at h
  | cons row rest ih =>
    intro r c x h
    cases r with
    | zero =>
      simp only [gridGet, idxGet, Option.bind] at h
      have h2 := countB_modify p f row c x h
      simp only [gridModify, idxModify, gridCountB]
      omega
    | succ n =>
      simp only [gridGet, idxGet] at h
      have h2 := ih n c x h
      simp only [gridModify, idxModify, gridCountB] at h2 ⊢
      omega

/-! ## Board-level cell access lemmas -/

@[simp] theorem modifyCell_rows (b : Board) (l : Location) (f : Cell → Cell) :
    (b.modifyCell l f).rows = b.rows := rfl

@[simp] theorem modifyCell_cols (b : Board) (l : Location) (f : Cell → Cell) :
    (b.modifyCell l f).cols = b.cols := rfl

@[simp] theorem modifyCell_initialized (b : Board) (l : Location) (f : Cell → Cell) :
    (b.modifyCell l f).initialized = b.initialized := rfl

@[simp] theorem modifyCell_difficulty (b : Board) (l : Location) (f : Cell → Cell) :
    (b.modifyCell l f).difficulty = b.difficulty := rfl

@[simp] theorem modifyCell_mines (b : Board) (l : Location) (f : Cell → Cell) :
    (b.modifyCell l f).mines = b.mines := rfl

@[simp] theorem modifyCell_explosionOccured (b : Board) (l : Location) (f : Cell → Cell) :
    (b.modifyCell l f).explosionOccured = b.explosionOccured := rfl

@[simp] theorem modifyCell_safeRemaining (b : Board) (l : Location) (f : Cell → Cell) :
    (b.modifyCell l f).safeRemaining = b.safeRemaining := rfl

@[simp] theorem modifyCell_mineCount (b : Board) (l : Location) (f : Cell → Cell) :
    (b.modifyCell l f).mineCount = b.mineCount := rfl

theorem Board.getCell_some_bounds {b : Board} {l : Location} {c : Cell}
    (h : b.getCell l = some c) :
    0 ≤ l.row ∧ l.row < b.rows ∧ 0 ≤ l.col ∧ l.col < b.cols ∧
      gridGet b.cells l.row.toNat l.col.toNat = some c := by
  unfold Board.getCell at h
  split at h
  · exact absurd h (by simp)
  · next hg =>
    push_neg at hg
    exact ⟨by omega, by omega, by omega, by omega, h⟩

theorem Board.getCell_of_bounds {b : Board} {l : Location}
    (h1 : 0 ≤ l.row) (h2 : l.row < b.rows) (h3 : 0 ≤ l.col) (h4 : l.col < b.cols) :
    b.getCell l = gridGet b.cells l.row.toNat l.col.toNat := by
  unfold Board.getCell
  rw [if_neg]
  omega

theorem Board.getCell_modifyCell_self {b : Board} {l : Location} {c : Cell}
    (h : b.getCell l = some c) (f : Cell → Cell) :
    (b.modifyCell l f).getCell l = some (f c) := by
  obtain ⟨h1, h2, h3, h4, h5⟩ := Board.getCell_some_bounds h
  rw [Board.getCell_of_bounds h1 (by simpa using h2) h3 (by simpa using h4)]
  show gridGet (gridModify f b.cells _ _) _ _ = _
  rw [gridGet_modify_self, h5]
  rfl

theorem Board.getCell_modifyCell_other {b : Board} {l m : Location} {c : Cell}
    (h : b.getCell l = some c) (hne : m ≠ l) (f : Cell → Cell) :
    (b.modifyCell l f).getCell m = b.getCell m := by
  obtain ⟨h1, h2, h3, h4, _⟩ := Board.getCell_some_bounds h
  by_cases hm : m.row < 0 ∨ m.row ≥ b.rows ∨ m.col < 0 ∨ m.col ≥ b.cols
  · unfold Board.getCell
    rw [if_pos (by simpa using hm), if_pos hm]
  · push_neg at hm
    rw [Board.getCell_of_bounds (by omega) (by simp; omega) (by omega) (by simp; omega),
        Board.getCell_of_bounds (by omega) (by omega) (by omega) (by omega)]
    show gridGet (gridModify f b.cells _ _) _ _ = _
    apply gridGet_modify_other
    have : l.row ≠ m.row ∨ l.col ≠ m.col := by
      by_contra hc
      push_neg at hc
      exact hne (by cases l; cases m; simp_all)
    rcases this with h | h
    · left; omega
    · right; omega

theorem mem_neighborLocs_isSome {b : Board} {l m : Location}
    (h : m ∈ b.neighborLocs l) : (b.getCell m).isSome = true := by
  unfold Board.neighborLocs at h
  split at h
  · simp at h
  · exact (List.mem_filter.mp h).2

/-! ## The reveal-extension (frame) relation

`PropagateReveals` and the reveal step of `Click` change nothing but
`revealed` flags, and those only from `false` to `true`. -/

/-- `c'` is `c` with possibly its `revealed` flag newly set. -/
def CellExt (c c' : Cell) : Prop :=
  c'.location = c.location ∧ c'.hasMine = c.hasMine ∧ c'.score = c.score ∧
    c'.flagged = c.flagged ∧ (c.revealed = true → c'.revealed = true)

def RowExt : List Cell → List Cell → Prop
  | [], [] => True
  | x :: xs, y :: ys => CellExt x y ∧ RowExt xs ys
  | _, _ => False

def GridExt : List (List Cell) → List (List Cell) → Prop
  | [], [] => True
  | r :: rs, r' :: rs' => RowExt r r' ∧ GridExt rs rs'
  | _, _ => False

/-- Pointwise `CellExt` on optional lookups. -/
def OptExt : Option Cell → Option Cell → Prop
  | none, none => True
  | some x, some y => CellExt x y
  | _, _ => False

/-- `b'` is `b` with some cells newly revealed and everything else equal. -/
def RevealExt (b b' : Board) : Prop :=
  b'.initialized = b.initialized ∧ b'.difficulty = b.difficulty ∧ b'.rows = b.rows ∧
    b'.cols = b.cols ∧ b'.mines = b.mines ∧ b'.explosionOccured = b.explosionOccured ∧
    b'.safeRemaining = b.safeRemaining ∧ b'.mineCount = b.mineCount ∧
    GridExt b.cells b'.cells

theorem cellExt_refl (c : Cell) : CellExt c c :=
  ⟨rfl, rfl, rfl, rfl, fun h => h⟩

theorem cellExt_trans {a b c : Cell} (h1 : CellExt a b) (h2 : CellExt b c) : CellExt a c := by
  obtain ⟨l1, m1, s1, f1, r1⟩ := h1
  obtain ⟨l2, m2, s2, f2, r2⟩ := h2
  exact ⟨l2.trans l1, m2.trans m1, s2.trans s1, f2.trans f1, fun h => r2 (r1 h)⟩

theorem rowExt_refl (r : List Cell) : RowExt r r := by
  induction r with
  | nil => trivial
  | cons x xs ih => exact ⟨cellExt_refl x, ih⟩

theorem rowExt_trans : ∀ {a b c : List Cell}, RowExt a b → RowExt b c → RowExt a c := by
  intro a
  induction a with
  | nil =>
    intro b c h1 h2
    cases b <;> cases c <;> first | trivial | exact absurd h1 (by simp [RowExt]) |
      exact absurd h2 (by simp [RowExt])
  | cons x xs ih =>
    intro b c h1 h2
    cases b with
    | nil => exact absurd h1 (by simp [RowExt])
    | cons y ys =>
      cases c with
      | nil => exact absurd h2 (by simp [RowExt])
      | cons z zs => exact ⟨cellExt_trans h1.1 h2.1, ih h1.2 h2.2⟩

theorem gridExt_refl (g : List (List Cell)) : GridExt g g := by
  induction g with
  | nil => trivial
  | cons r rs ih => exact ⟨rowExt_refl r, ih⟩

theorem gridExt_trans : ∀ {a b c : List (List Cell)}, GridExt a b → GridExt b c → GridExt a c := by
  intro a
  induction a with
  | nil =>
    intro b c h1 h2
    cases b <;> cases c <;> first | trivial | exact absurd h1 (by simp [GridExt]) |
      exact absurd h2 (by simp [GridExt])
  | cons r rs ih =>
    intro b c h1 h2
    cases b with
    | nil => exact absurd h1 (by simp [GridExt])
    | cons y ys =>
      cases c with
      | nil => exact absurd h2 (by simp [GridExt])
      | cons z zs => exact ⟨rowExt_trans h1.1 h2.1, ih h1.2 h2.2⟩

theorem revealExt_refl (b : Board) : RevealExt b b :=
  ⟨rfl, rfl, rfl, rfl, rfl, rfl, rfl, rfl, gridExt_refl b.cells⟩

theorem revealExt_trans {a b c : Board} (h1 : RevealExt a b) (h2 : RevealExt b c) :
    RevealExt a c := by
  obtain ⟨i1, d1, r1, c1, m1, e1, s1, n1, g1⟩ := h1
  obtain ⟨i2, d2, r2, c2, m2, e2, s2, n2, g2⟩ := h2
  exact ⟨i2.trans i1, d2.trans d1, r2.trans r1, c2.trans c1, m2.trans m1, e2.trans e1,
    s2.trans s1, n2.trans n1, gridExt_trans g1 g2⟩

theorem rowExt_idxGet : ∀ {r r' : List Cell}, RowExt r r' →
    ∀ c, OptExt (idxGet r c) (idxGet r' c) := by
  intro r
  induction r with
  | nil =>
    intro r' h c
    cases r' with
    | nil => cases c <;> trivial
    | cons y ys => exact absurd h (by simp [RowExt])
  | cons x xs ih =>
    intro r' h c
    cases r' with
    | nil => exact absurd h (by simp [RowExt])
    | cons y ys =>
      cases c with
      | zero => exact h.1
      | succ n => exact ih h.2 n

theorem gridExt_gridGet : ∀ {g g' : List (List Cell)}, GridExt g g' →
    ∀ r c, OptExt (gridGet g r c) (gridGet g' r c) := by
  intro g
  induction g with
  | nil =>
    intro g' h r c
    cases g' with
    | nil => cases r <;> trivial
    | cons y ys => exact absurd h (by simp [GridExt])
  | cons row rest ih =>
    intro g' h r c
    cases g' with
    | nil => exact absurd h (by simp [GridExt])
    | cons row' rest' =>
      cases r with
      | zero => exact rowExt_idxGet h.1 c
      | succ n => exact ih h.2 n c

theorem revealExt_getCell {b b' : Board} (h : RevealExt b b') (l : Location) :
    OptExt (b.getCell l) (b'.getCell l) := by
  obtain ⟨_, _, hr, hc, _, _, _, _, hg⟩ := h
  unfold Board.getCell
  rw [hr, hc]
  split
  · trivial
  · exact gridExt_gridGet hg _ _

theorem revealExt_isSome {b b' : Board} (h : RevealExt b b') (l : Location) :
    (b'.getCell l).isSome = (b.getCell l).isSome := by
  have h2 := revealExt_getCell h l
  cases hb : b.getCell l <;> cases hb' : b'.getCell l <;> simp_all [OptExt]

theorem revealExt_isNone {b b' : Board} (h : RevealExt b b') (l : Location) :
    (b'.getCell l).isNone = (b.getCell l).isNone := by
  have h2 := revealExt_getCell h l
  cases hb : b.getCell l <;> cases hb' : b'.getCell l <;> simp_all [OptExt]

theorem revealExt_scoreAt {b b' : Board} (h : RevealExt b b') (l : Location) :
    b'.scoreAt l = b.scoreAt l := by
  have h2 := revealExt_getCell h l
  unfold Board.scoreAt
  cases hb : b.getCell l <;> cases hb' : b'.getCell l <;> simp_all [OptExt, CellExt]

theorem revealExt_mineAt {b b' : Board} (h : RevealExt b b') (l : Location) :
    b'.mineAt l = b.mineAt l := by
  have h2 := revealExt_getCell h l
  unfold Board.mineAt
  cases hb : b.getCell l <;> cases hb' : b'.getCell l <;> simp_all [OptExt, CellExt]

theorem revealExt_flaggedAt {b b' : Board} (h : RevealExt b b') (l : Location) :
    b'.flaggedAt l = b.flaggedAt l := by
  have h2 := revealExt_getCell h l
  unfold Board.flaggedAt
  cases hb : b.getCell l <;> cases hb' : b'.getCell l <;> simp_all [OptExt, CellExt]

theorem revealExt_revealedAt_mono {b b' : Board} (h : RevealExt b b') {l : Location}
    (hrev : b.revealedAt l = true) : b'.revealedAt l = true := by
  have h2 := revealExt_getCell h l
  unfold Board.revealedAt at hrev ⊢
  cases hb : b.getCell l <;> cases hb' : b'.getCell l <;> simp_all [OptExt, CellExt]

theorem revealExt_neighborLocs {b b' : Board} (h : RevealExt b b') (l : Location) :
    b'.neighborLocs l = b.neighborLocs l := by
  unfold Board.neighborLocs
  rw [revealExt_isNone h l]
  split
  · rfl
  · exact List.filter_congr fun m _ => revealExt_isSome h m

theorem revealExt_getNeighborCells_count {b b' : Board} (h : RevealExt b b') (l : Location) :
    countB (fun c => c.hasMine) (b'.getNeighborCells l) =
      countB (fun c => c.hasMine) (b.getNeighborCells l) := by
  unfold Board.getNeighborCells
  rw [revealExt_isNone h l]
  split
  · rfl
  · generalize mooreNeighbors l = ms
    induction ms with
    | nil => rfl
    | cons m rest ih =>
      have h2 := revealExt_getCell h m
      cases hb : b.getCell m <;> cases hb' : b'.getCell m <;>
        simp_all [OptExt, CellExt, List.filterMap_cons, countB]

theorem revealExt_closure {b b' : Board} (h : RevealExt b b') {s m : Location}
    (hc : RevealClosure b s m) : RevealClosure b' s m := by
  induction hc with
  | start => exact RevealClosure.start
  | step hz hs hm ih =>
    exact RevealClosure.step ih (by rw [revealExt_scoreAt h]; exact hs)
      (by rw [revealExt_neighborLocs h]; exact hm)

theorem revealExt_closure_iff {b b' : Board} (h : RevealExt b b') (s m : Location) :
    RevealClosure b' s m ↔ RevealClosure b s m := by
  constructor
  · intro hc
    induction hc with
    | start => exact RevealClosure.start
    | step hz hs hm ih =>
      exact RevealClosure.step ih (by rw [← revealExt_scoreAt h]; exact hs)
        (by rw [← revealExt_neighborLocs h]; exact hm)
  · exact revealExt_closure h

theorem rowExt_count_unrevealed : ∀ {r r' : List Cell}, RowExt r r' →
    countB (fun c => !c.revealed) r' ≤ countB (fun c => !c.revealed) r := by
  intro r
  induction r with
  | nil =>
    intro r' h
    cases r' with
    | nil => exact Nat.le_refl _
    | cons y ys => exact absurd h (by simp [RowExt])
  | cons x xs ih =>
    intro r' h
    cases r' with
    | nil => exact absurd h (by simp [RowExt])
    | cons y ys =>
      have hx : (if !y.revealed then 1 else 0) ≤ (if !x.revealed then 1 else 0) := by
        have := h.1.2.2.2.2
        cases hxr : x.revealed <;> cases hyr : y.revealed <;> simp_all
      have := ih h.2
      simp only [countB]
      omega

theorem gridExt_count_unrevealed : ∀ {g g' : List (List Cell)}, GridExt g g' →
    gridCountB (fun c => !c.revealed) g' ≤ gridCountB (fun c => !c.revealed) g := by
  intro g
  induction g with
  | nil =>
    intro g' h
    cases g' with
    | nil => exact Nat.le_refl _
    | cons y ys => exact absurd h (by simp [GridExt])
  | cons row rest ih =>
    intro g' h
    cases g' with
    | nil => exact absurd h (by simp [GridExt])
    | cons row' rest' =>
      have h1 := rowExt_count_unrevealed h.1
      have h2 := ih h.2
      simp only [gridCountB]
      omega

theorem revealExt_unrevealedCount {b b' : Board} (h : RevealExt b b') :
    b'.unrevealedCount ≤ b.unrevealedCount :=
  gridExt_count_unrevealed h.2.2.2.2.2.2.2.2

theorem rowExt_idxModify_reveal : ∀ (r : List Cell) (c : Nat),
    RowExt r (idxModify revealCell r c) := by
  intro r
  induction r with
  | nil => intro c; trivial
  | cons x xs ih =>
    intro c
    cases c with
    | zero => exact ⟨⟨rfl, rfl, rfl, rfl, fun _ => rfl⟩, rowExt_refl xs⟩
    | succ n => exact ⟨cellExt_refl x, ih n⟩

theorem gridExt_gridModify_reveal : ∀ (g : List (List Cell)) (r c : Nat),
    GridExt g (gridModify revealCell g r c) := by
  intro g
  induction g with
  | nil => intro r c; cases r <;> trivial
  | cons row rest ih =>
    intro r c
    cases r with
    | zero => exact ⟨rowExt_idxModify_reveal row c, gridExt_refl rest⟩
    | succ n => exact ⟨rowExt_refl row, ih n c⟩

theorem revealExt_modifyCell_reveal (b : Board) (l : Location) :
    RevealExt b (b.modifyCell l revealCell) :=
  ⟨rfl, rfl, rfl, rfl, rfl, rfl, rfl, rfl, gridExt_gridModify_reveal b.cells _ _⟩

/-- Every cell's stored `location` field equals its grid position (holds for
any grid built by `Initialize`). -/
def LocOK (b : Board) : Prop :=
  ∀ l x, b.getCell l = some x → x.location = l

theorem revealExt_locOK {b b' : Board} (h : RevealExt b b') (hl : LocOK b) : LocOK b' := by
  intro l x hx
  have h2 := revealExt_getCell h l
  cases hb : b.getCell l with
  | none => rw [hb, hx] at h2; exact absurd h2 (by simp [OptExt])
  | some y =>
    rw [hb, hx] at h2
    rw [h2.1]
    exact hl l y hb

/-! ## Frame and termination of `PropagateReveals` -/

theorem propLoop_frame (rec : Board → Location → Option Board)
    (hrec : ∀ b l b', rec b l = some b' → RevealExt b b') :
    ∀ ns b b', propLoop rec b ns = some b' → RevealExt b b' := by
  intro ns
  induction ns with
  | nil =>
    intro b b' h
    simp only [propLoop] at h
    cases h
    exact revealExt_refl b
  | cons n rest ih =>
    intro b b' h
    simp only [propLoop] at h
    split at h
    · exact ih b b' h
    · split at h
      · exact ih b b' h
      · split at h
        · split at h
          · exact absurd h (by simp)
          · next b2 hrc =>
            exact revealExt_trans (revealExt_modifyCell_reveal b n)
              (revealExt_trans (hrec _ _ _ hrc) (ih b2 b' h))
        · exact revealExt_trans (revealExt_modifyCell_reveal b n) (ih _ b' h)

theorem propagateReveals_frame :
    ∀ fuel b l b', propagateReveals fuel b l = some b' → RevealExt b b' := by
  intro fuel
  induction fuel with
  | zero => intro b l b' h; simp [propagateReveals] at h
  | succ f ih =>
    intro b l b' h
    rw [propagateReveals] at h
    exact propLoop_frame (propagateReveals f) ih _ b b' h

theorem unrevealedCount_reveal {b : Board} {n : Location} {c : Cell}
    (hg : b.getCell n = some c) (hr : c.revealed = false) :
    (b.modifyCell n revealCell).unrevealedCount + 1 = b.unrevealedCount := by
  have h5 := (Board.getCell_some_bounds hg).2.2.2.2
  have h6 := gridCountB_modify (fun c => !c.revealed) revealCell b.cells _ _ _ h5
  simp only [revealCell, hr, Bool.not_false, Bool.not_true] at h6
  unfold Board.unrevealedCount Board.modifyCell
  simpa using h6

theorem propLoop_total (rec : Board → Location → Option Board) (N : Nat)
    (hrec_frame : ∀ b l b', rec b l = some b' → RevealExt b b')
    (hrec_total : ∀ b l, b.unrevealedCount < N → (rec b l).isSome = true) :
    ∀ ns b, b.unrevealedCount ≤ N → (propLoop rec b ns).isSome = true := by
  intro ns
  induction ns with
  | nil => intro b _; simp [propLoop]
  | cons n rest ih =>
    intro b hb
    simp only [propLoop]
    split
    · exact ih b hb
    · next c hg =>
      split
      · exact ih b hb
      · next hrev =>
        have hdec := unrevealedCount_reveal hg (by simpa using hrev)
        split
        · have h1 : (b.modifyCell n revealCell).unrevealedCount < N := by omega
          have h2 := hrec_total (b.modifyCell n revealCell) c.location h1
          split
          · next hrc => rw [hrc] at h2; exact absurd h2 (by simp)
          · next b2 hrc =>
            have h3 :
                b2.unrevealedCount ≤ (b.modifyCell n revealCell).unrevealedCount :=
              revealExt_unrevealedCount (hrec_frame _ _ _ hrc)
            exact ih b2 (by omega)
        · exact ih _ (by omega)

/-- Termination of `PropagateReveals`: any fuel exceeding the number of
still-unrevealed cells suffices, because every recursive call is made
right after one cell flips from unrevealed to revealed and no reveal is
ever undone. -/
theorem propagateReveals_total :
    ∀ fuel b l, b.unrevealedCount < fuel → (propagateReveals fuel b l).isSome = true := by
  intro fuel
  induction fuel with
  | zero => intro b l h; omega
  | succ f ih =>
    intro b l h
    rw [propagateReveals]
    exact propLoop_total (propagateReveals f) f (propagateReveals_frame f) ih _ b (by omega)

/-! ## Soundness: propagation reveals only the closure -/

theorem scoreAt_of_getCell {b : Board} {l : Location} {c : Cell}
    (h : b.getCell l = some c) : b.scoreAt l = c.score := by
  unfold Board.scoreAt
  rw [h]

theorem revealedAt_of_getCell {b : Board} {l : Location} {c : Cell}
    (h : b.getCell l = some c) : b.revealedAt l = c.revealed := by
  unfold Board.revealedAt
  rw [h]

theorem flaggedAt_of_getCell {b : Board} {l : Location} {c : Cell}
    (h : b.getCell l = some c) : b.flaggedAt l = c.flagged := by
  unfold Board.flaggedAt
  rw [h]

theorem mineAt_of_getCell {b : Board} {l : Location} {c : Cell}
    (h : b.getCell l = some c) : b.mineAt l = c.hasMine := by
  unfold Board.mineAt
  rw [h]

theorem revealedAt_modify_elim {b : Board} {n m : Location} {c : Cell}
    (hg : b.getCell n = some c)
    (h : (b.modifyCell n revealCell).revealedAt m = true) :
    b.revealedAt m = true ∨ m = n := by
  by_cases hmn : m = n
  · exact Or.inr hmn
  · left
    unfold Board.revealedAt at h ⊢
    rw [Board.getCell_modifyCell_other hg hmn revealCell] at h
    exact h

theorem closure_trans {b : Board} {s z m : Location}
    (h1 : RevealClosure b s z) (h2 : RevealClosure b z m) : RevealClosure b s m := by
  induction h2 with
  | start => exact h1
  | step _ hs hm ih => exact RevealClosure.step ih hs hm

theorem propLoop_sound (rec : Board → Location → Option Board)
    (hrec_frame : ∀ b l b', rec b l = some b' → RevealExt b b')
    (hrec_sound : ∀ b l b', rec b l = some b' → LocOK b → b.scoreAt l = 0 →
      ∀ m, b'.revealedAt m = true → b.revealedAt m = true ∨ RevealClosure b l m)
    (b₀ : Board) (l₀ : Location) (hsc : b₀.scoreAt l₀ = 0) (hlok : LocOK b₀) :
    ∀ ns b b', RevealExt b₀ b → (∀ n ∈ ns, n ∈ b₀.neighborLocs l₀) →
      propLoop rec b ns = some b' →
      ∀ m, b'.revealedAt m = true → b.revealedAt m = true ∨ RevealClosure b₀ l₀ m := by
  intro ns
  induction ns with
  | nil =>
    intro b b' _ _ h m hm
    simp only [propLoop] at h
    cases h
    exact Or.inl hm
  | cons n rest ih =>
    intro b b' hext hns h m hm
    have hlokb : LocOK b := revealExt_locOK hext hlok
    have hns' : ∀ x ∈ rest, x ∈ b₀.neighborLocs l₀ :=
      fun x hx => hns x (List.mem_cons_of_mem n hx)
    simp only [propLoop] at h
    split at h
    · exact ih b b' hext hns' h m hm
    · next c hg =>
      have hcl : c.location = n := hlokb n c hg
      have hncl : RevealClosure b₀ l₀ n :=
        RevealClosure.step RevealClosure.start hsc (hns n (List.mem_cons_self n rest))
      split at h
      · exact ih b b' hext hns' h m hm
      · have hext1 : RevealExt b₀ (b.modifyCell n revealCell) :=
          revealExt_trans hext (revealExt_modifyCell_reveal b n)
        split at h
        · next hs0 =>
          split at h
          · exact absurd h (by simp)
          · next b2 hrc =>
            rw [hcl] at hrc
            have hext2 : RevealExt b₀ b2 := revealExt_trans hext1 (hrec_frame _ _ _ hrc)
            rcases ih b2 b' hext2 hns' h m hm with hm2 | hcl2
            · have hs1 : (b.modifyCell n revealCell).scoreAt n = 0 := by
                rw [revealExt_scoreAt (revealExt_modifyCell_reveal b n) n,
                  scoreAt_of_getCell hg]
                exact hs0
              rcases hrec_sound _ _ _ hrc (revealExt_locOK hext1 hlok) hs1 m hm2 with
                hm1 | hclm
              · rcases revealedAt_modify_elim hg hm1 with hmb | rfl
                · exact Or.inl hmb
                · exact Or.inr hncl
              · exact Or.inr (closure_trans hncl ((revealExt_closure_iff hext1 n m).mp hclm))
            · exact Or.inr hcl2
        · rcases ih _ b' hext1 hns' h m hm with hm1 | hcl2
          · rcases revealedAt_modify_elim hg hm1 with hmb | rfl
            · exact Or.inl hmb
            · exact Or.inr hncl
          · exact Or.inr hcl2

theorem propagateReveals_sound :
    ∀ fuel b l b', propagateReveals fuel b l = some b' → LocOK b → b.scoreAt l = 0 →
      ∀ m, b'.revealedAt m = true → b.revealedAt m = true ∨ RevealClosure b l m := by
  intro fuel
  induction fuel with
  | zero => simp [propagateReveals]
  | succ f ih =>
    intro b l b' h hlok hsc m hm
    rw [propagateReveals] at h
    exact propLoop_sound (propagateReveals f) (propagateReveals_frame f) ih b l hsc hlok
      (b.neighborLocs l) b b' (revealExt_refl b) (fun x hx => hx) h m hm

/-! ## Completeness: propagation reveals the whole closure -/

/-- `Board.ZeroInvAt` holds everywhere except possibly inside `S` (the cells
whose neighbor scan is still pending on the recursion stack). -/
def ZeroInvExcept (b : Board) (S : Location → Prop) : Prop :=
  ∀ l, ¬ S l → b.ZeroInvAt l

theorem revealedAt_modify_self {b : Board} {n : Location} {c : Cell}
    (hg : b.getCell n = some c) :
    (b.modifyCell n revealCell).revealedAt n = true := by
  unfold Board.revealedAt
  rw [Board.getCell_modifyCell_self hg revealCell]
  rfl

theorem zeroInvAt_reveal_other {b : Board} {n l : Location} {c : Cell}
    (hg : b.getCell n = some c) (hne : l ≠ n) (h : b.ZeroInvAt l) :
    (b.modifyCell n revealCell).ZeroInvAt l := by
  have hb1 := revealExt_modifyCell_reveal b n
  intro hsc hrev m hmem
  rw [revealExt_scoreAt hb1 l] at hsc
  have hrevb : b.revealedAt l = true := by
    unfold Board.revealedAt at hrev ⊢
    rw [Board.getCell_modifyCell_other hg hne revealCell] at hrev
    exact hrev
  rw [revealExt_neighborLocs hb1 l] at hmem
  exact revealExt_revealedAt_mono hb1 (h hsc hrevb m hmem)

theorem zeroInvAt_reveal_self_nonzero {b : Board} {n : Location} {c : Cell}
    (hg : b.getCell n = some c) (hs : c.score ≠ 0) :
    (b.modifyCell n revealCell).ZeroInvAt n := by
  intro hsc
  exfalso
  apply hs
  rw [scoreAt_of_getCell (Board.getCell_modifyCell_self hg revealCell)] at hsc
  simpa [revealCell] using hsc

theorem zeroInvExcept_reveal_zero {b : Board} {n : Location} {c : Cell} {S : Location → Prop}
    (hg : b.getCell n = some c) (h : ZeroInvExcept b S) :
    ZeroInvExcept (b.modifyCell n revealCell) (fun x => x = n ∨ S x) := by
  intro l hl
  simp only [not_or] at hl
  exact zeroInvAt_reveal_other hg hl.1 (h l hl.2)

theorem zeroInvExcept_reveal_nonzero {b : Board} {n : Location} {c : Cell}
    {S : Location → Prop} (hg : b.getCell n = some c) (hs : c.score ≠ 0)
    (h : ZeroInvExcept b S) :
    ZeroInvExcept (b.modifyCell n revealCell) S := by
  intro l hl
  by_cases hln : l = n
  · subst hln
    exact zeroInvAt_reveal_self_nonzero hg hs
  · exact zeroInvAt_reveal_other hg hln (h l hl)

theorem propLoop_zeroInv (rec : Board → Location → Option Board)
    (hrec_frame : ∀ b l b', rec b l = some b' → RevealExt b b')
    (hrec_zi : ∀ b l b' (S : Location → Prop), rec b l = some b' → LocOK b →
      ZeroInvExcept b (fun x => x = l ∨ S x) →
      ZeroInvExcept b' S ∧ ∀ m ∈ b.neighborLocs l, b'.revealedAt m = true) :
    ∀ ns b b' (S : Location → Prop) (l₀ : Location), LocOK b →
      (∀ n ∈ ns, (b.getCell n).isSome = true) →
      ZeroInvExcept b (fun x => x = l₀ ∨ S x) →
      propLoop rec b ns = some b' →
      ZeroInvExcept b' (fun x => x = l₀ ∨ S x) ∧ ∀ n ∈ ns, b'.revealedAt n = true := by
  intro ns
  induction ns with
  | nil =>
    intro b b' S l₀ _ _ hzi h
    simp only [propLoop] at h
    cases h
    exact ⟨hzi, by simp⟩
  | cons n rest ih =>
    intro b b' S l₀ hlok hsome hzi h
    have hsome' : ∀ x ∈ rest, (b.getCell x).isSome = true :=
      fun x hx => hsome x (List.mem_cons_of_mem n hx)
    simp only [propLoop] at h
    split at h
    · next hg =>
      have hx := hsome n (List.mem_cons_self n rest)
      rw [hg] at hx
      exact absurd hx (by simp)
    · next c hg =>
      have hframe_rest := propLoop_frame rec hrec_frame rest
      split at h
      · next hrev =>
        obtain ⟨hz, hr⟩ := ih b b' S l₀ hlok hsome' hzi h
        refine ⟨hz, fun x hx => ?_⟩
        rcases List.mem_cons.mp hx with rfl | hx'
        · exact revealExt_revealedAt_mono (hframe_rest b b' h)
            (by rw [revealedAt_of_getCell hg]; exact hrev)
        · exact hr x hx'
      · next hrev =>
        have hext1 := revealExt_modifyCell_reveal b n
        have hlok1 : LocOK (b.modifyCell n revealCell) := revealExt_locOK hext1 hlok
        have hsome1 : ∀ x ∈ rest, ((b.modifyCell n revealCell).getCell x).isSome = true :=
          fun x hx => by rw [revealExt_isSome hext1 x]; exact hsome' x hx
        have hcl : c.location = n := hlok n c hg
        split at h
        · next hs0 =>
          split at h
          · exact absurd h (by simp)
          · next b2 hrc =>
            rw [hcl] at hrc
            have hzi1 := zeroInvExcept_reveal_zero hg hzi
            obtain ⟨hz2, hr2⟩ := hrec_zi _ _ _ _ hrc hlok1
              (by
                intro l hl
                apply hzi1 l
                tauto)
            have hext2 : RevealExt b b2 := revealExt_trans hext1 (hrec_frame _ _ _ hrc)
            have hlok2 : LocOK b2 := revealExt_locOK hext2 hlok
            have hsome2 : ∀ x ∈ rest, (b2.getCell x).isSome = true :=
              fun x hx => by rw [revealExt_isSome hext2 x]; exact hsome' x hx
            obtain ⟨hz3, hr3⟩ := ih b2 b' S l₀ hlok2 hsome2 hz2 h
            refine ⟨hz3, fun x hx => ?_⟩
            rcases List.mem_cons.mp hx with rfl | hx'
            · exact revealExt_revealedAt_mono (hframe_rest b2 b' h)
                (revealExt_revealedAt_mono (hrec_frame _ _ _ hrc)
                  (revealedAt_modify_self hg))
            · exact hr3 x hx'
        · next hs0 =>
          have hzi1 := zeroInvExcept_reveal_nonzero hg hs0 hzi
          obtain ⟨hz2, hr2⟩ := ih _ b' S l₀ hlok1 hsome1 hzi1 h
          refine ⟨hz2, fun x hx => ?_⟩
          rcases List.mem_cons.mp hx with rfl | hx'
          · exact revealExt_revealedAt_mono (hframe_rest _ b' h) (revealedAt_modify_self hg)
          · exact hr2 x hx'

theorem propagateReveals_zeroInv :
    ∀ fuel b l b' (S : Location → Prop), propagateReveals fuel b l = some b' → LocOK b →
      ZeroInvExcept b (fun x => x = l ∨ S x) →
      ZeroInvExcept b' S ∧ ∀ m ∈ b.neighborLocs l, b'.revealedAt m = true := by
  intro fuel
  induction fuel with
  | zero => simp [propagateReveals]
  | succ f ih =>
    intro b l b' S h hlok hzi
    rw [propagateReveals] at h
    obtain ⟨hz, hr⟩ := propLoop_zeroInv (propagateReveals f) (propagateReveals_frame f) ih
      (b.neighborLocs l) b b' S l hlok (fun n hn => mem_neighborLocs_isSome hn) hzi h
    have hframe : RevealExt b b' :=
      propLoop_frame (propagateReveals f) (propagateReveals_frame f) _ b b' h
    refine ⟨fun x hx => ?_, hr⟩
    by_cases hxl : x = l
    · subst hxl
      intro _ _ m hmem
      rw [revealExt_neighborLocs hframe x] at hmem
      exact hr m hmem
    · exact hz x (by tauto)

/-- On a board where every revealed zero-score cell already has its neighbors
revealed, everything in the closure of a revealed zero-score cell is
revealed. -/
theorem zeroInv_closure_revealed {b : Board} (hzi : b.ZeroInv) {s : Location}
    (hrev : b.revealedAt s = true) :
    ∀ m, RevealClosure b s m → b.revealedAt m = true := by
  intro m hc
  induction hc with
  | start => exact hrev
  | step _ hs hm ih => exact hzi _ hs ih _ hm

/-! ## Bridging the decidable board predicates -/

theorem loc_eta {l : Location} (h1 : 0 ≤ l.row) (h2 : 0 ≤ l.col) :
    (⟨(l.row.toNat : Int), (l.col.toNat : Int)⟩ : Location) = l := by
  cases l with
  | mk lr lc =>
    dsimp only at h1 h2 ⊢
    simp only [Location.mk.injEq]
    omega

theorem wfd_locOK {b : Board} (h : b.WFD) : LocOK b := by
  intro l x hx
  obtain ⟨h1, h2, h3, h4, hg⟩ := Board.getCell_some_bounds hx
  obtain ⟨hr0, hc0, _, _, hloc⟩ := h
  have h5 := hloc l.row.toNat (by omega) l.col.toNat (by omega)
  unfold locOKB at h5
  rw [hg] at h5
  simp only [decide_eq_true_eq] at h5
  rw [h5]
  exact loc_eta h1 h3

theorem zeroInvD_zeroInv {b : Board} (h : b.ZeroInvD) : b.ZeroInv := by
  intro l hsc hrev m hmem
  cases hx : b.getCell l with
  | none =>
    unfold Board.revealedAt at hrev
    rw [hx] at hrev
    exact absurd hrev (by simp)
  | some c =>
    obtain ⟨h1, h2, h3, h4, _⟩ := Board.getCell_some_bounds hx
    have h5 := h l.row.toNat (by omega) l.col.toNat (by omega)
    rw [loc_eta h1 h3] at h5
    exact h5 hsc hrev m hmem

/-! ## The click-level flood-fill description -/

/-- Master lemma: a click on an in-grid, unflagged, unrevealed, mine-free,
zero-score cell that completes turns the revealed set into its union with the
reveal closure of the clicked cell, and changes nothing else. -/
theorem clickF_zero_master {b : Board} {s : Location} {c : Cell} {fuel : Nat} {b' : Board}
    (hlok : LocOK b) (hzi : b.ZeroInv) (hg : b.getCell s = some c)
    (hfl : c.flagged = false) (hrev : c.revealed = false) (hmine : c.hasMine = false)
    (hs : c.score = 0) (h : b.clickF fuel s = some b') :
    RevealExt b b' ∧ b'.ZeroInv ∧
      (∀ m, b'.revealedAt m = true ↔ (b.revealedAt m = true ∨ RevealClosure b s m)) := by
  simp only [Board.clickF, hg, hfl, hrev, hmine, hs] at h
  simp only [Bool.false_eq_true, if_false, reduceIte] at h
  rw [hlok s c hg] at h
  have hext1 := revealExt_modifyCell_reveal b s
  have hlok1 : LocOK (b.modifyCell s revealCell) := revealExt_locOK hext1 hlok
  have hframe2 := propagateReveals_frame fuel _ _ _ h
  have hframe : RevealExt b b' := revealExt_trans hext1 hframe2
  have hs1 : (b.modifyCell s revealCell).scoreAt s = 0 := by
    rw [scoreAt_of_getCell (Board.getCell_modifyCell_self hg revealCell)]
    simpa [revealCell] using hs
  have hzie : ZeroInvExcept b (fun _ => False) := fun l _ => hzi l
  obtain ⟨hz', hr'⟩ := propagateReveals_zeroInv fuel _ s b' (fun _ => False) h hlok1
    (zeroInvExcept_reveal_zero hg hzie)
  have hzi' : b'.ZeroInv := fun l => hz' l (by simp)
  have hrevs : b'.revealedAt s = true :=
    revealExt_revealedAt_mono hframe2 (revealedAt_modify_self hg)
  refine ⟨hframe, hzi', fun m => ⟨fun hm => ?_, fun hm => ?_⟩⟩
  · rcases propagateReveals_sound fuel _ s b' h hlok1 hs1 m hm with hm1 | hcl
    · rcases revealedAt_modify_elim hg hm1 with hmb | rfl
      · exact Or.inl hmb
      · exact Or.inr RevealClosure.start
    · exact Or.inr ((revealExt_closure_iff hext1 s m).mp hcl)
  · rcases hm with hm | hcl
    · exact revealExt_revealedAt_mono hframe hm
    · exact zeroInv_closure_revealed hzi' hrevs m (revealExt_closure hframe hcl)

/-! ## Score initialization preserves everything but scores -/

theorem countB_congr {p q : α → Bool} : ∀ {xs : List α}, (∀ x ∈ xs, p x = q x) →
    countB p xs = countB q xs := by
  intro xs
  induction xs with
  | nil => intro _; rfl
  | cons x rest ih =>
    intro h
    simp only [countB, h x (List.mem_cons_self x rest),
      ih fun y hy => h y (List.mem_cons_of_mem x hy)]

/-- `b'` agrees with `b` on everything a score write cannot touch. -/
def SameSkeleton (b b' : Board) : Prop :=
  b'.initialized = b.initialized ∧ b'.difficulty = b.difficulty ∧ b'.rows = b.rows ∧
    b'.cols = b.cols ∧ b'.mines = b.mines ∧ b'.explosionOccured = b.explosionOccured ∧
    b'.safeRemaining = b.safeRemaining ∧ b'.mineCount = b.mineCount ∧
    b'.countMines = b.countMines ∧
    (∀ l, (b'.getCell l).isSome = (b.getCell l).isSome) ∧
    (∀ l, b'.mineAt l = b.mineAt l) ∧ (∀ l, b'.flaggedAt l = b.flaggedAt l) ∧
    (∀ l, b'.revealedAt l = b.revealedAt l)

theorem sameSkeleton_refl (b : Board) : SameSkeleton b b :=
  ⟨rfl, rfl, rfl, rfl, rfl, rfl, rfl, rfl, rfl,
    fun _ => rfl, fun _ => rfl, fun _ => rfl, fun _ => rfl⟩

theorem sameSkeleton_trans {a b c : Board} (h1 : SameSkeleton a b) (h2 : SameSkeleton b c) :
    SameSkeleton a c := by
  obtain ⟨i1, d1, r1, c1, m1, e1, s1, n1, cm1, gs1, mi1, fl1, rv1⟩ := h1
  obtain ⟨i2, d2, r2, c2, m2, e2, s2, n2, cm2, gs2, mi2, fl2, rv2⟩ := h2
  exact ⟨i2.trans i1, d2.trans d1, r2.trans r1, c2.trans c1, m2.trans m1, e2.trans e1,
    s2.trans s1, n2.trans n1, cm2.trans cm1, fun l => (gs2 l).trans (gs1 l),
    fun l => (mi2 l).trans (mi1 l), fun l => (fl2 l).trans (fl1 l),
    fun l => (rv2 l).trans (rv1 l)⟩

theorem scoreStep_sameSkeleton (bb : Board) (l : Location) :
    SameSkeleton bb (scoreStep bb l) := by
  unfold scoreStep
  cases hg : bb.getCell l with
  | none => exact sameSkeleton_refl bb
  | some c =>
    have hself := Board.getCell_modifyCell_self hg (fun c => { c with score := bb.mineScoreAt l })
    have hother := fun m (hm : m ≠ l) =>
      Board.getCell_modifyCell_other hg hm (fun c => { c with score := bb.mineScoreAt l })
    have hcount : (bb.modifyCell l fun c => { c with score := bb.mineScoreAt l }).countMines =
        bb.countMines := by
      have h5 := (Board.getCell_some_bounds hg).2.2.2.2
      have h6 := gridCountB_modify (fun c => c.hasMine)
        (fun c => { c with score := bb.mineScoreAt l }) bb.cells _ _ _ h5
      unfold Board.countMines Board.modifyCell
      simp only at h6 ⊢
      omega
    refine ⟨rfl, rfl, rfl, rfl, rfl, rfl, rfl, rfl, hcount, fun m => ?_, fun m => ?_,
      fun m => ?_, fun m => ?_⟩ <;>
      by_cases hm : m = l
    · subst hm; rw [hself, hg]; rfl
    · rw [hother m hm]
    · subst hm
      unfold Board.mineAt
      rw [hself, hg]
    · unfold Board.mineAt
      rw [hother m hm]
    · subst hm
      unfold Board.flaggedAt
      rw [hself, hg]
    · unfold Board.flaggedAt
      rw [hother m hm]
    · subst hm
      unfold Board.revealedAt
      rw [hself, hg]
    · unfold Board.revealedAt
      rw [hother m hm]

theorem scoreFold_sameSkeleton : ∀ (ls : List Location) (bb : Board),
    SameSkeleton bb (ls.foldl scoreStep bb) := by
  intro ls
  induction ls with
  | nil => intro bb; exact sameSkeleton_refl bb
  | cons l rest ih =>
    intro bb
    exact sameSkeleton_trans (scoreStep_sameSkeleton bb l) (ih (scoreStep bb l))

theorem initScores_sameSkeleton (b : Board) : SameSkeleton b (initScores b) :=
  scoreFold_sameSkeleton _ b

/-- The score the code stores coincides with the count of mined Moore
neighbors read through `mineAt`. -/
theorem mineScoreAt_eq {b : Board} {l : Location} (h : (b.getCell l).isSome = true) :
    b.mineScoreAt l = countB (fun m => b.mineAt m) (mooreNeighbors l) := by
  unfold Board.mineScoreAt Board.getNeighborCells
  rw [if_neg (by cases hx : b.getCell l <;> simp_all)]
  generalize mooreNeighbors l = ms
  induction ms with
  | nil => rfl
  | cons m rest ih =>
    cases hm : b.getCell m with
    | none =>
      have hmm : b.mineAt m = false := by unfold Board.mineAt; rw [hm]
      simp [List.filterMap_cons, hm, countB, hmm, ih]
    | some c =>
      have hmm : b.mineAt m = c.hasMine := by unfold Board.mineAt; rw [hm]
      simp [List.filterMap_cons, hm, countB, hmm, ih]

theorem scoreStep_scoreAt_other {bb : Board} {l m : Location} (hm : m ≠ l) :
    (scoreStep bb l).scoreAt m = bb.scoreAt m := by
  unfold scoreStep
  cases hg : bb.getCell l with
  | none => rfl
  | some c =>
    unfold Board.scoreAt
    rw [Board.getCell_modifyCell_other hg hm _]

theorem scoreStep_scoreAt_self {bb : Board} {l : Location} {c : Cell}
    (hg : bb.getCell l = some c) : (scoreStep bb l).scoreAt l = bb.mineScoreAt l := by
  unfold scoreStep
  rw [hg]
  rw [scoreAt_of_getCell (Board.getCell_modifyCell_self hg _)]

theorem scoreFold_scoreAt_notmem : ∀ (ls : List Location) (bb : Board) (l : Location),
    l ∉ ls → (ls.foldl scoreStep bb).scoreAt l = bb.scoreAt l := by
  intro ls
  induction ls with
  | nil => intro bb l _; rfl
  | cons x rest ih =>
    intro bb l hl
    have h1 : l ≠ x := fun h => hl (h ▸ List.mem_cons_self x rest)
    have h2 : l ∉ rest := fun h => hl (List.mem_cons_of_mem x h)
    simp only [List.foldl_cons]
    rw [ih _ l h2, scoreStep_scoreAt_other h1]

theorem scoreFold_scoreAt_mem : ∀ (ls : List Location) (bb : Board) (l : Location),
    l ∈ ls → (bb.getCell l).isSome = true →
    (ls.foldl scoreStep bb).scoreAt l =
      countB (fun m => (ls.foldl scoreStep bb).mineAt m) (mooreNeighbors l) := by
  intro ls
  induction ls with
  | nil => intro bb l h _; simp at h
  | cons x rest ih =>
    intro bb l hl hsome
    simp only [List.foldl_cons]
    by_cases hmem : l ∈ rest
    · have hsome' : ((scoreStep bb x).getCell l).isSome = true := by
        rw [(scoreStep_sameSkeleton bb x).2.2.2.2.2.2.2.2.2.1 l]
        exact hsome
      exact ih (scoreStep bb x) l hmem hsome'
    · have hlx : l = x := by
        rcases List.mem_cons.mp hl with h | h
        · exact h
        · exact absurd h hmem
      subst hlx
      obtain ⟨c, hg⟩ := Option.isSome_iff_exists.mp hsome
      have hskel : SameSkeleton bb (rest.foldl scoreStep (scoreStep bb l)) :=
        sameSkeleton_trans (scoreStep_sameSkeleton bb l)
          (scoreFold_sameSkeleton rest (scoreStep bb l))
      rw [scoreFold_scoreAt_notmem rest _ l hmem, scoreStep_scoreAt_self hg,
        mineScoreAt_eq hsome]
      exact countB_congr fun m _ => (hskel.2.2.2.2.2.2.2.2.2.2.1 m).symm

/-! ## The fresh grid of `Initialize` -/

theorem idxGet_eq_get? : ∀ (xs : List α) (i : Nat), idxGet xs i = xs.get? i := by
  intro xs
  induction xs with
  | nil => intro i; cases i <;> rfl
  | cons x rest ih => intro i; cases i with
    | zero => rfl
    | succ n => exact ih n

theorem idxGet_mem : ∀ {xs : List α} {i : Nat} {x : α}, idxGet xs i = some x → x ∈ xs := by
  intro xs
  induction xs with
  | nil => intro i x h; cases i <;> simp [idxGet] at h
  | cons y rest ih =>
    intro i x h
    cases i with
    | zero =>
      simp only [idxGet] at h
      cases h
      exact List.mem_cons_self _ _
    | succ n => exact List.mem_cons_of_mem y (ih h)

theorem mkCells_mem {R C : Int} {row : List Cell} {x : Cell}
    (hrow : row ∈ mkCells R C) (hx : x ∈ row) :
    x.hasMine = false ∧ x.score = 0 ∧ x.flagged = false ∧ x.revealed = false := by
  unfold mkCells at hrow
  obtain ⟨r, _, rfl⟩ := List.mem_map.mp hrow
  obtain ⟨c, _, rfl⟩ := List.mem_map.mp hx
  exact ⟨rfl, rfl, rfl, rfl⟩

theorem countB_eq_zero {p : α → Bool} : ∀ {xs : List α}, (∀ x ∈ xs, p x = false) →
    countB p xs = 0 := by
  intro xs
  induction xs with
  | nil => intro _; rfl
  | cons x rest ih =>
    intro h
    simp only [countB, h x (List.mem_cons_self x rest), ih
      fun y hy => h y (List.mem_cons_of_mem x hy)]
    rfl

theorem gridCountB_eq_zero {p : Cell → Bool} : ∀ {g : List (List Cell)},
    (∀ row ∈ g, ∀ x ∈ row, p x = false) → gridCountB p g = 0 := by
  intro g
  induction g with
  | nil => intro _; rfl
  | cons row rest ih =>
    intro h
    simp only [gridCountB, countB_eq_zero (h row (List.mem_cons_self row rest)), ih
      fun y hy => h y (List.mem_cons_of_mem row hy)]

theorem mkCells_countMines (R C : Int) :
    gridCountB (fun c => c.hasMine) (mkCells R C) = 0 := by
  apply gridCountB_eq_zero
  intro row hrow x hx
  exact (mkCells_mem hrow hx).1

theorem mem_allLocations {R C : Int} {l : Location} :
    l ∈ allLocations R C ↔ 0 ≤ l.row ∧ l.row < R ∧ 0 ≤ l.col ∧ l.col < C := by
  unfold allLocations
  constructor
  · intro hmem
    obtain ⟨r, hr, hl⟩ := List.mem_flatMap.mp hmem
    obtain ⟨c, hc, rfl⟩ := List.mem_map.mp hl
    rw [List.mem_range] at hr hc
    refine ⟨?_, ?_, ?_, ?_⟩ <;> dsimp only <;> omega
  · rintro ⟨h1, h2, h3, h4⟩
    refine List.mem_flatMap.mpr ⟨l.row.toNat, List.mem_range.mpr (by omega), ?_⟩
    exact List.mem_map.mpr ⟨l.col.toNat, List.mem_range.mpr (by omega), loc_eta h1 h3⟩

/-! ## Scores after `Initialize` -/

theorem initializeF_scores_all {b : Board} {fuel : Nat} {rng : Nat → Nat}
    {safe : Location} {b' : Board} (h : b.initializeF fuel rng safe = some b') :
    ∀ l c, b'.getCell l = some c →
      c.score = countB (fun m => b'.mineAt m) (mooreNeighbors l) := by
  unfold Board.initializeF at h
  dsimp only at h
  split at h
  · exact absurd h (by simp)
  · next b1 k t hpl =>
    cases h
    intro l c hg
    have hg1 : (initScores b1).getCell l = some c := hg
    obtain ⟨hr1, hr2, hr3, hr4, _⟩ := Board.getCell_some_bounds hg1
    have hrows : (initScores b1).rows = b1.rows := (initScores_sameSkeleton b1).2.2.1
    have hcols : (initScores b1).cols = b1.cols := (initScores_sameSkeleton b1).2.2.2.1
    have hmem : l ∈ allLocations b1.rows b1.cols :=
      mem_allLocations.mpr ⟨hr1, hrows ▸ hr2, hr3, hcols ▸ hr4⟩
    have hsome1 : (b1.getCell l).isSome = true := by
      rw [← (initScores_sameSkeleton b1).2.2.2.2.2.2.2.2.2.1 l, hg1]
      rfl
    have hmain := scoreFold_scoreAt_mem (allLocations b1.rows b1.cols) b1 l hmem hsome1
    rw [show (allLocations b1.rows b1.cols).foldl scoreStep b1 = initScores b1 from rfl]
      at hmain
    rw [scoreAt_of_getCell hg1] at hmain
    exact hmain

/-! ## The mine-placement phase of `Initialize` -/

theorem gridGet_mem {g : List (List α)} {r c : Nat} {x : α} (h : gridGet g r c = some x) :
    ∃ row ∈ g, x ∈ row := by
  unfold gridGet at h
  cases hr : idxGet g r with
  | none => rw [hr] at h; exact absurd h (by simp)
  | some row =>
    rw [hr] at h
    exact ⟨row, idxGet_mem hr, idxGet_mem h⟩

/-- Invariant carried through the mine-placement scan: the mines on the board
plus the mines still to place add up to `N`, `safeRemaining` tracks
`rows*cols` minus the placed mines, and the safe spot stays clean. -/
def PlaceInv (N : Nat) (safe : Location) (b0 : Board) (st : Board × Nat × Nat) : Prop :=
  st.1.countMines + st.2.2 = N ∧
    st.1.safeRemaining = b0.rows * b0.cols - (st.1.countMines : Int) ∧
    st.1.mineAt safe = false ∧ st.1.rows = b0.rows ∧ st.1.cols = b0.cols

theorem placeMineStep_inv {N : Nat} {safe : Location} {b0 : Board} {rng : Nat → Nat}
    {st : Board × Nat × Nat} (l : Location) (h : PlaceInv N safe b0 st) :
    PlaceInv N safe b0 (placeMineStep safe rng st l) := by
  obtain ⟨b, k, t⟩ := st
  obtain ⟨h1, h2, h3, h4, h5⟩ := h
  simp only [placeMineStep]
  by_cases ht : t = 0
  · rw [if_pos ht]
    exact ⟨h1, h2, h3, h4, h5⟩
  · rw [if_neg ht]
    by_cases hl : l = safe
    · rw [if_pos hl]
      exact ⟨h1, h2, h3, h4, h5⟩
    · rw [if_neg hl]
      by_cases hshot : rng k < 2
      · rw [if_pos hshot]
        split
        · exact ⟨h1, h2, h3, h4, h5⟩
        · next c hg =>
          by_cases hm : c.hasMine = true
          · rw [if_pos hm]
            exact ⟨h1, h2, h3, h4, h5⟩
          · rw [if_neg hm]
            have hb := (Board.getCell_some_bounds hg).2.2.2.2
            have hcount := gridCountB_modify (fun c => c.hasMine) setMine b.cells _ _ _ hb
            simp only [setMine, hm, Bool.false_eq_true, if_false, if_pos] at hcount
            have hcm : (b.modifyCell l setMine).countMines = b.countMines + 1 := by
              unfold Board.countMines Board.modifyCell
              dsimp only
              omega
            refine ⟨?_, ?_, ?_, h4, h5⟩
            · show (b.modifyCell l setMine).countMines + (t - 1) = N
              simp only at h1
              omega
            · show b.safeRemaining - 1 = b0.rows * b0.cols - ((b.modifyCell l setMine).countMines : Int)
              simp only at h2
              rw [hcm, h2]
              push_cast
              ring
            · show (b.modifyCell l setMine).mineAt safe = false
              have hne : safe ≠ l := fun hh => hl hh.symm
              unfold Board.mineAt
              rw [Board.getCell_modifyCell_other hg hne setMine]
              exact h3
      · rw [if_neg hshot]
        exact ⟨h1, h2, h3, h4, h5⟩

theorem foldl_placeMineStep_inv {N : Nat} {safe : Location} {b0 : Board} {rng : Nat → Nat} :
    ∀ (ls : List Location) (st : Board × Nat × Nat), PlaceInv N safe b0 st →
      PlaceInv N safe b0 (ls.foldl (placeMineStep safe rng) st) := by
  intro ls
  induction ls with
  | nil => intro st h; exact h
  | cons l rest ih => intro st h; exact ih _ (placeMineStep_inv l h)

theorem placeMinesLoop_inv {N : Nat} {safe : Location} {b0 : Board} {rng : Nat → Nat} :
    ∀ (fuel : Nat) (st st' : Board × Nat × Nat),
      placeMinesLoop safe rng fuel st = some st' → PlaceInv N safe b0 st →
      PlaceInv N safe b0 st' ∧ st'.2.2 = 0 := by
  intro fuel
  induction fuel with
  | zero =>
    intro st st' h hinv
    unfold placeMinesLoop at h
    split at h
    · next ht => cases h; exact ⟨hinv, ht⟩
    · exact absurd h (by simp)
  | succ f ih =>
    intro st st' h hinv
    unfold placeMinesLoop at h
    split at h
    · next ht => cases h; exact ⟨hinv, ht⟩
    · exact ih _ _ h (foldl_placeMineStep_inv _ _ hinv)

/-- What mine placement guarantees about the board `Initialize` returns. -/
theorem initializeF_place_spec {b : Board} {fuel : Nat} {rng : Nat → Nat}
    {safe : Location} {b' : Board} (h : b.initializeF fuel rng safe = some b') :
    b'.countMines = b.mineCount ∧ b'.mineAt safe = false ∧
      b'.safeRemaining = b.rows * b.cols - (b.mineCount : Int) ∧
      b'.initialized = true ∧ b'.rows = b.rows ∧ b'.cols = b.cols := by
  unfold Board.initializeF at h
  dsimp only at h
  split at h
  · exact absurd h (by simp)
  · next b1 k t hpl =>
    cases h
    have hmine0 : ({ b with
        cells := mkCells b.rows b.cols,
        safeRemaining := b.rows * b.cols } : Board).mineAt safe = false := by
      unfold Board.mineAt
      cases hg : ({ b with
          cells := mkCells b.rows b.cols,
          safeRemaining := b.rows * b.cols } : Board).getCell safe with
      | none => rfl
      | some x =>
        have hb := (Board.getCell_some_bounds hg).2.2.2.2
        obtain ⟨row, hrow, hx⟩ := gridGet_mem hb
        exact (mkCells_mem hrow hx).1
    have hinv0 : PlaceInv b.mineCount safe b
        ({ b with cells := mkCells b.rows b.cols, safeRemaining := b.rows * b.cols }, 0,
          b.mineCount) := by
      refine ⟨?_, ?_, hmine0, rfl, rfl⟩
      · show gridCountB (fun c => c.hasMine) (mkCells b.rows b.cols) + b.mineCount = b.mineCount
        rw [mkCells_countMines]
        omega
      · show (b.rows * b.cols : Int) =
          b.rows * b.cols - ((gridCountB (fun c => c.hasMine) (mkCells b.rows b.cols) : Nat) : Int)
        rw [mkCells_countMines]
        simp
    obtain ⟨⟨h1, h2, h3, h4, h5⟩, ht0⟩ := placeMinesLoop_inv fuel _ _ hpl hinv0
    simp only at h1 h2 h3 h4 h5 ht0
    subst ht0
    have hskel := initScores_sameSkeleton b1
    refine ⟨?_, ?_, ?_, rfl, ?_, ?_⟩
    · show (initScores b1).countMines = b.mineCount
      rw [hskel.2.2.2.2.2.2.2.2.1]
      omega
    · show (initScores b1).mineAt safe = false
      rw [hskel.2.2.2.2.2.2.2.2.2.2.1 safe]
      exact h3
    · show (initScores b1).safeRemaining = b.rows * b.cols - (b.mineCount : Int)
      rw [hskel.2.2.2.2.2.2.1, h2]
      congr 1
      omega
    · show (initScores b1).rows = b.rows
      rw [hskel.2.2.1]
      exact h4
    · show (initScores b1).cols = b.cols
      rw [hskel.2.2.2.1]
      exact h5

/-! ## Concrete boards used as witnesses and counterexamples -/

/-- A 1×2 initialized board with no mines: both cells have score 0. -/
def tbOpen : Board :=
  { initialized := true, difficulty := "test", rows := 1, cols := 2, mines := [],
    explosionOccured := false,
    cells := [[{ location := ⟨0, 0⟩, hasMine := false, score := 0, flagged := false,
                 revealed := false },
               { location := ⟨0, 1⟩, hasMine := false, score := 0, flagged := false,
                 revealed := false }]],
    safeRemaining := 2, mineCount := 0 }

def tbOpenCell : Cell :=
  { location := ⟨0, 0⟩, hasMine := false, score := 0, flagged := false, revealed := false }

def tbOpenClicked : Board :=
  (tbOpen.clickF 9 ⟨0, 0⟩).getD default

/-- As `tbOpen` but with the cell at (0,1) flagged. -/
def tbFlag : Board :=
  { initialized := true, difficulty := "test", rows := 1, cols := 2, mines := [],
    explosionOccured := false,
    cells := [[{ location := ⟨0, 0⟩, hasMine := false, score := 0, flagged := false,
                 revealed := false },
               { location := ⟨0, 1⟩, hasMine := false, score := 0, flagged := true,
                 revealed := false }]],
    safeRemaining := 2, mineCount := 0 }

def tbFlagCell : Cell :=
  { location := ⟨0, 0⟩, hasMine := false, score := 0, flagged := false, revealed := false }

def tbFlagClicked : Board :=
  (tbFlag.clickF 9 ⟨0, 0⟩).getD default

/-- A 1×2 initialized board with a lone mine at (0,0): correct scores give the
mine cell score 0 (it has no mined neighbor). -/
def tbMineZero : Board :=
  { initialized := true, difficulty := "test", rows := 1, cols := 2, mines := [⟨0, 0⟩],
    explosionOccured := false,
    cells := [[{ location := ⟨0, 0⟩, hasMine := true, score := 0, flagged := false,
                 revealed := false },
               { location := ⟨0, 1⟩, hasMine := false, score := 1, flagged := false,
                 revealed := false }]],
    safeRemaining := 1, mineCount := 1 }

def tbMineCell : Cell :=
  { location := ⟨0, 0⟩, hasMine := true, score := 0, flagged := false, revealed := false }

def tbMineZeroClicked : Board :=
  (tbMineZero.clickF 9 ⟨0, 0⟩).getD default

/-- A fresh 2×2 board with one mine to place. -/
def b21 : Board :=
  { initialized := false, difficulty := "t21", rows := 2, cols := 2, mines := [],
    explosionOccured := false, cells := [], safeRemaining := 0, mineCount := 1 }

/-- `b21` after `Initialize` with the always-hit rng: the mine lands on (0,0). -/
def b21i : Board :=
  (b21.initializeF 1 (fun _ => 0) ⟨1, 1⟩).getD default

def b21c : Board :=
  (b21i.clickF 9 ⟨1, 1⟩).getD default

/-- A fresh 2×2 board with two mines to place. -/
def b22 : Board :=
  { initialized := false, difficulty := "t22", rows := 2, cols := 2, mines := [],
    explosionOccured := false, cells := [], safeRemaining := 0, mineCount := 2 }

/-- `b22` after `Initialize` with the always-hit rng: adjacent mines on (0,0)
and (0,1). -/
def b22i : Board :=
  (b22.initializeF 1 (fun _ => 0) ⟨1, 1⟩).getD default

def b22iCell01 : Cell :=
  (b22i.getCell ⟨0, 1⟩).getD tbOpenCell

def b22iCell00 : Cell :=
  (b22i.getCell ⟨0, 0⟩).getD tbOpenCell

def easyB : Board :=
  (NewBoard "easy").getD default

def easyI : Board :=
  (easyB.initializeF 1 (fun _ => 0) ⟨4, 4⟩).getD default

/-! ## The claims -/

/-- C1 (code bug): the spec's invariant — each reveal of a non-mine cell
decreases `SafeRemaining()` by exactly one — is violated: `Click` and
`PropagateReveals` never touch `safeRemaining`, contradicting the source's
own comments ("cache number of non-mine cells remaining to be revealed",
"Win condition is when this number reaches 0"). Evaluated at a failing
input: on the initialized 2×2 one-mine board `b21i`, clicking the non-mine
cell (1,1) newly reveals it, yet `SafeRemaining()` stays 3 instead of
dropping to 2. -/
theorem click_safeRemaining_bug :
    b21i.initialized = true ∧ b21i.mineAt ⟨1, 1⟩ = false ∧
      b21i.flaggedAt ⟨1, 1⟩ = false ∧ b21i.revealedAt ⟨1, 1⟩ = false ∧
      b21i.SafeRemaining = 3 ∧ b21i.clickF 9 ⟨1, 1⟩ = some b21c ∧
      b21c.revealedAt ⟨1, 1⟩ = true ∧ b21c.SafeRemaining = 3 := by
  refine ⟨?_, ?_, ?_, ?_, ?_, ?_, ?_, ?_⟩ <;> decide

/-- C2 (counterexample): as stated the claim fails when the clicked
zero-score cell holds a mine (a lone mine has score 0 under correct
scoring): `Click` then explodes without propagating, so the closure
neighbor (0,1) stays hidden even though it belongs to the connected
zero-score region's border. -/
theorem click_zero_mine_counterexample :
    tbMineZero.WFD ∧ tbMineZero.ZeroInvD ∧ tbMineZero.ScoresCorrectD ∧
      tbMineZero.initialized = true ∧ tbMineZero.revealedAt ⟨0, 0⟩ = false ∧
      tbMineZero.flaggedAt ⟨0, 0⟩ = false ∧ tbMineZero.scoreAt ⟨0, 0⟩ = 0 ∧
      tbMineZero.clickF 9 ⟨0, 0⟩ = some tbMineZeroClicked ∧
      RevealClosure tbMineZero ⟨0, 0⟩ ⟨0, 1⟩ ∧
      tbMineZeroClicked.revealedAt ⟨0, 1⟩ = false := by
  refine ⟨by decide, by decide, by decide, by decide, by decide, by decide, by decide,
    by decide, ?_, by decide⟩
  exact RevealClosure.step RevealClosure.start (by decide) (by decide)

/-- C2 (amended): on a well-formed initialized board with correct scores in
which every already-revealed zero-score cell has all its neighbors revealed
(true of every state reachable through the API) clicking an unrevealed,
unflagged, zero-score cell that holds no mine reveals exactly the connected
zero-score region of the cell plus its immediate non-zero-score border
(`RevealClosure`), and no other cell changes its revealed status. -/
theorem click_zero_reveals_closure (b : Board) (s : Location) (c : Cell) (fuel : Nat)
    (b' : Board) (hwf : b.WFD) (hzi : b.ZeroInvD) (hsc : b.ScoresCorrectD)
    (hini : b.initialized = true) (hg : b.getCell s = some c) (hcfl : c.flagged = false)
    (hcrev : c.revealed = false) (hcmine : c.hasMine = false) (hcs : c.score = 0)
    (h : b.clickF fuel s = some b') :
    ∀ m, b'.revealedAt m = true ↔ (b.revealedAt m = true ∨ RevealClosure b s m) :=
  (clickF_zero_master (wfd_locOK hwf) (zeroInvD_zeroInv hzi) hg hcfl hcrev hcmine hcs h).2.2

theorem click_zero_reveals_closure_witness :
    (tbOpen.WFD ∧ tbOpen.ZeroInvD ∧ tbOpen.ScoresCorrectD ∧ tbOpen.initialized = true ∧
      tbOpen.getCell ⟨0, 0⟩ = some tbOpenCell ∧ tbOpenCell.flagged = false ∧
      tbOpenCell.revealed = false ∧ tbOpenCell.hasMine = false ∧ tbOpenCell.score = 0 ∧
      tbOpen.clickF 9 ⟨0, 0⟩ = some tbOpenClicked) ∧
    (tbOpenClicked.revealedAt ⟨0, 1⟩ = true ↔
      (tbOpen.revealedAt ⟨0, 1⟩ = true ∨ RevealClosure tbOpen ⟨0, 0⟩ ⟨0, 1⟩)) :=
  ⟨⟨by decide, by decide, by decide, by decide, by decide, by decide, by decide, by decide,
    by decide, by decide⟩,
   click_zero_reveals_closure tbOpen ⟨0, 0⟩ tbOpenCell 9 tbOpenClicked (by decide)
     (by decide) (by decide) (by decide) (by decide) (by decide) (by decide) (by decide)
     (by decide) (by decide) ⟨0, 1⟩⟩

/-- C3: for a `NewBoard` board, after a completed `Initialize(safe)` with the
safe spot inside the grid, exactly `mineCount` cells carry a mine, none at
`safe`, and `SafeRemaining()` equals `rows*cols - mineCount`. -/
theorem newBoard_initialize_spec (d : String) (b : Board) (safe : Location) (fuel : Nat)
    (rng : Nat → Nat) (b' : Board) (hnb : NewBoard d = some b)
    (hsafe : b.ValidLocation safe = true) (hlt : (b.mineCount : Int) < b.rows * b.cols)
    (h : b.initializeF fuel rng safe = some b') :
    b'.countMines = b.mineCount ∧ b'.mineAt safe = false ∧
      b'.SafeRemaining = b.rows * b.cols - (b.mineCount : Int) := by
  obtain ⟨h1, h2, h3, h4, _, _⟩ := initializeF_place_spec h
  refine ⟨h1, h2, ?_⟩
  unfold Board.SafeRemaining
  rw [if_pos h4]
  exact h3

set_option maxRecDepth 40000

theorem newBoard_initialize_spec_witness :
    (NewBoard "easy" = some easyB ∧ easyB.ValidLocation ⟨4, 4⟩ = true ∧
      ((easyB.mineCount : Int) < easyB.rows * easyB.cols) ∧
      easyB.initializeF 1 (fun _ => 0) ⟨4, 4⟩ = some easyI) ∧
    (easyI.countMines = easyB.mineCount ∧ easyI.mineAt ⟨4, 4⟩ = false ∧
      easyI.SafeRemaining = easyB.rows * easyB.cols - (easyB.mineCount : Int)) :=
  ⟨⟨by decide, by decide, by decide, by decide⟩,
   newBoard_initialize_spec "easy" easyB ⟨4, 4⟩ 1 (fun _ => 0) easyI (by decide)
     (by decide) (by decide) (by decide)⟩

/-- C4: after a completed `Initialize`, every cell's `score` is the number of
its Moore neighbors (row±1, col±1, self and out-of-grid positions excluded)
that carry a mine. -/
theorem initialize_scores_spec (b : Board) (fuel : Nat) (rng : Nat → Nat)
    (safe : Location) (b' : Board) (l : Location) (c : Cell)
    (h : b.initializeF fuel rng safe = some b') (hg : b'.getCell l = some c) :
    c.score = countB (fun m => b'.mineAt m) (mooreNeighbors l) :=
  initializeF_scores_all h l c hg

theorem initialize_scores_spec_witness :
    (b22.initializeF 1 (fun _ => 0) ⟨1, 1⟩ = some b22i ∧
      b22i.getCell ⟨0, 1⟩ = some b22iCell01) ∧
    b22iCell01.score = countB (fun m => b22i.mineAt m) (mooreNeighbors ⟨0, 1⟩) :=
  ⟨⟨by decide, by decide⟩,
   initialize_scores_spec b22 1 (fun _ => 0) ⟨1, 1⟩ b22i ⟨0, 1⟩ b22iCell01 (by decide)
     (by decide)⟩

/-- C5 (counterexample): a mine's score is not always 0: a run of
`Initialize` on a 2×2 board places adjacent mines on (0,0) and (0,1), and
the mine cell (0,0) ends with score 1. -/
theorem mine_score_counterexample :
    b22.initializeF 1 (fun _ => 0) ⟨1, 1⟩ = some b22i ∧
      b22i.mineAt ⟨0, 0⟩ = true ∧ b22i.scoreAt ⟨0, 0⟩ = 1 := by
  refine ⟨?_, ?_, ?_⟩ <;> decide

/-- C5 (amended): after `Initialize`, a cell with a mine has `score` equal to
the number of its Moore neighbors carrying mines — the cell's own mine is
not counted (the neighborhood excludes the cell itself), but the score is 0
only when no neighbor is mined. -/
theorem initialize_mine_score (b : Board) (fuel : Nat) (rng : Nat → Nat)
    (safe : Location) (b' : Board) (l : Location) (c : Cell)
    (h : b.initializeF fuel rng safe = some b') (hg : b'.getCell l = some c)
    (hm : c.hasMine = true) :
    c.score = countB (fun m => b'.mineAt m) (mooreNeighbors l) :=
  initializeF_scores_all h l c hg

theorem initialize_mine_score_witness :
    (b22.initializeF 1 (fun _ => 0) ⟨1, 1⟩ = some b22i ∧
      b22i.getCell ⟨0, 0⟩ = some b22iCell00 ∧ b22iCell00.hasMine = true) ∧
    b22iCell00.score = countB (fun m => b22i.mineAt m) (mooreNeighbors ⟨0, 0⟩) :=
  ⟨⟨by decide, by decide, by decide⟩,
   initialize_mine_score b22 1 (fun _ => 0) ⟨1, 1⟩ b22i ⟨0, 0⟩ b22iCell00 (by decide)
     (by decide) (by decide)⟩

/-- C6: clicking an unrevealed, unflagged mine cell sets the explosion flag
(`MineHit()` becomes true), leaves `SafeRemaining()` and `safeRemaining`
untouched, performs no propagation, and changes no cell other than setting
the clicked cell's `revealed` flag. -/
theorem click_mine_spec (b : Board) (s : Location) (c : Cell) (fuel : Nat) (b' : Board)
    (hini : b.initialized = true) (hg : b.getCell s = some c) (hfl : c.flagged = false)
    (hrev : c.revealed = false) (hmine : c.hasMine = true)
    (h : b.clickF fuel s = some b') :
    b'.MineHit = true ∧ b'.SafeRemaining = b.SafeRemaining ∧
      b'.getCell s = some (revealCell c) ∧ (∀ m, m ≠ s → b'.getCell m = b.getCell m) ∧
      b'.safeRemaining = b.safeRemaining ∧ b'.initialized = b.initialized ∧
      b'.rows = b.rows ∧ b'.cols = b.cols ∧ b'.difficulty = b.difficulty ∧
      b'.mines = b.mines ∧ b'.mineCount = b.mineCount := by
  simp only [Board.clickF, hg, hfl, hrev, hmine] at h
  simp only [Bool.false_eq_true, if_false, reduceIte] at h
  cases h
  refine ⟨rfl, rfl, ?_, ?_, rfl, rfl, rfl, rfl, rfl, rfl, rfl⟩
  · show (b.modifyCell s revealCell).getCell s = some (revealCell c)
    exact Board.getCell_modifyCell_self hg revealCell
  · intro m hm
    show (b.modifyCell s revealCell).getCell m = b.getCell m
    exact Board.getCell_modifyCell_other hg hm revealCell

theorem click_mine_spec_witness :
    (tbMineZero.initialized = true ∧ tbMineZero.getCell ⟨0, 0⟩ = some tbMineCell ∧
      tbMineCell.flagged = false ∧ tbMineCell.revealed = false ∧
      tbMineCell.hasMine = true ∧ tbMineZero.clickF 9 ⟨0, 0⟩ = some tbMineZeroClicked) ∧
    (tbMineZeroClicked.MineHit = true ∧
      tbMineZeroClicked.SafeRemaining = tbMineZero.SafeRemaining) :=
  ⟨⟨by decide, by decide, by decide, by decide, by decide, by decide⟩,
   ⟨(click_mine_spec tbMineZero ⟨0, 0⟩ tbMineCell 9 tbMineZeroClicked (by decide)
       (by decide) (by decide) (by decide) (by decide) (by decide)).1,
    (click_mine_spec tbMineZero ⟨0, 0⟩ tbMineCell 9 tbMineZeroClicked (by decide)
       (by decide) (by decide) (by decide) (by decide) (by decide)).2.1⟩⟩

/-- C7 (code bug): on a board fresh from `NewBoard` (grid not yet
allocated), the cell lookup made by `Click` and `ToggleFlag` at any in-bounds
location passes the `rows`/`cols` precondition and then indexes the nil
`cells` slice: in Go this panics with index out of range, instead of the
explicit failure the spec requires. -/
theorem uninitialized_click_panics :
    NewBoard "easy" = some easyB ∧ easyB.initialized = false ∧
      easyB.ValidLocation ⟨0, 0⟩ = true ∧ easyB.cells = [] ∧
      easyB.cellLookupPanics ⟨0, 0⟩ = true := by
  refine ⟨?_, ?_, ?_, ?_, ?_⟩ <;> decide

/-- C8: `NewBoard` accepts exactly "easy", "medium" and "hard", with the
documented shapes 9×9/10, 16×16/30 and 30×16/72; every other name yields no
board. -/
theorem newBoard_presets :
    (∀ name b, NewBoard name = some b →
      (name = "easy" ∧ b.rows = 9 ∧ b.cols = 9 ∧ b.mineCount = 10) ∨
      (name = "medium" ∧ b.rows = 16 ∧ b.cols = 16 ∧ b.mineCount = 30) ∨
      (name = "hard" ∧ b.rows = 30 ∧ b.cols = 16 ∧ b.mineCount = 72)) ∧
    (NewBoard "easy").isSome = true ∧ (NewBoard "medium").isSome = true ∧
    (NewBoard "hard").isSome = true ∧ NewBoard "nightmare" = none ∧
    NewBoard "" = none := by
  refine ⟨?_, by decide, by decide, by decide, by decide, by decide⟩
  intro name b h
  unfold NewBoard boardDefinitionsDict at h
  by_cases h1 : name = "easy"
  · rw [if_pos h1] at h
    cases h
    exact Or.inl ⟨h1, rfl, rfl, rfl⟩
  · rw [if_neg h1] at h
    by_cases h2 : name = "medium"
    · rw [if_pos h2] at h
      cases h
      exact Or.inr (Or.inl ⟨h2, rfl, rfl, rfl⟩)
    · rw [if_neg h2] at h
      by_cases h3 : name = "hard"
      · rw [if_pos h3] at h
        cases h
        exact Or.inr (Or.inr ⟨h3, rfl, rfl, rfl⟩)
      · rw [if_neg h3] at h
        exact absurd h (by simp)

theorem newBoard_presets_witness :
    NewBoard "easy" = some easyB ∧
      (("easy" = "easy" ∧ easyB.rows = 9 ∧ easyB.cols = 9 ∧ easyB.mineCount = 10) ∨
       ("easy" = "medium" ∧ easyB.rows = 16 ∧ easyB.cols = 16 ∧ easyB.mineCount = 30) ∨
       ("easy" = "hard" ∧ easyB.rows = 30 ∧ easyB.cols = 16 ∧ easyB.mineCount = 72)) :=
  ⟨by decide, newBoard_presets.1 "easy" easyB (by decide)⟩

/-- C9: `PropagateReveals` terminates: any fuel exceeding the number of
still-unrevealed cells completes, because a recursive call happens only
right after some cell flips from unrevealed to revealed and reveals are
never undone, so the unrevealed count strictly decreases along the
recursion. -/
theorem propagateReveals_terminates (fuel : Nat) (b : Board) (l : Location)
    (h : b.unrevealedCount < fuel) : (propagateReveals fuel b l).isSome = true :=
  propagateReveals_total fuel b l h

theorem propagateReveals_terminates_witness :
    tbOpen.unrevealedCount < 3 ∧ (propagateReveals 3 tbOpen ⟨0, 0⟩).isSome = true :=
  ⟨by decide, propagateReveals_terminates 3 tbOpen ⟨0, 0⟩ (by decide)⟩

/-- C10: a flag does not protect a cell from flood fill: under the same
conditions as the flood-fill contract, a flagged unrevealed cell lying in
the reveal closure of the clicked zero-score cell ends revealed while its
`flagged` field stays true — `PropagateReveals` never consults `flagged`. -/
theorem click_reveals_flagged (b : Board) (s f : Location) (c : Cell) (fuel : Nat)
    (b' : Board) (hwf : b.WFD) (hzi : b.ZeroInvD) (hini : b.initialized = true)
    (hg : b.getCell s = some c) (hcfl : c.flagged = false) (hcrev : c.revealed = false)
    (hcmine : c.hasMine = false) (hcs : c.score = 0) (hf : b.flaggedAt f = true)
    (hfr : b.revealedAt f = false) (hcl : RevealClosure b s f)
    (h : b.clickF fuel s = some b') :
    b'.revealedAt f = true ∧ b'.flaggedAt f = true := by
  obtain ⟨hframe, _, hiff⟩ :=
    clickF_zero_master (wfd_locOK hwf) (zeroInvD_zeroInv hzi) hg hcfl hcrev hcmine hcs h
  exact ⟨(hiff f).mpr (Or.inr hcl), by rw [revealExt_flaggedAt hframe f]; exact hf⟩

theorem click_reveals_flagged_witness :
    (tbFlag.WFD ∧ tbFlag.ZeroInvD ∧ tbFlag.initialized = true ∧
      tbFlag.getCell ⟨0, 0⟩ = some tbFlagCell ∧ tbFlagCell.flagged = false ∧
      tbFlagCell.revealed = false ∧ tbFlagCell.hasMine = false ∧ tbFlagCell.score = 0 ∧
      tbFlag.flaggedAt ⟨0, 1⟩ = true ∧ tbFlag.revealedAt ⟨0, 1⟩ = false ∧
      tbFlag.clickF 9 ⟨0, 0⟩ = some tbFlagClicked) ∧
    (tbFlagClicked.revealedAt ⟨0, 1⟩ = true ∧ tbFlagClicked.flaggedAt ⟨0, 1⟩ = true) :=
  ⟨⟨by decide, by decide, by decide, by decide, by decide, by decide, by decide, by decide,
    by decide, by decide, by decide⟩,
   click_reveals_flagged tbFlag ⟨0, 0⟩ ⟨0, 1⟩ tbFlagCell 9 tbFlagClicked (by decide)
     (by decide) (by decide) (by decide) (by decide) (by decide) (by decide) (by decide)
     (by decide) (by decide)
     (RevealClosure.step RevealClosure.start (by decide) (by decide)) (by decide)⟩
